import Mathlib

/-
Verification of the recency-classifier / HTML-sanitizer core of
`src/app.py` (functions `within_past_week` and `basic_sanitize_ul`).

Strings are modelled as `List Char`.  Each Python regex substitution is
embedded as a leftmost, non-overlapping scan whose per-position matcher
implements exactly the backtracking behaviour of the concrete pattern
(justifications are given at each definition).  Whitespace, digits and
word characters are modelled over ASCII, which covers every input class
the claims quantify over.  `datetime.now()` is modelled by an explicit
reference day ordinal (proleptic Gregorian, as `date.toordinal`): since
`when` is parsed at midnight, `(dt.now() - when).days` equals the
difference of the day ordinals for every time of day of `now`.
-/

/-- Python `\s` / `str.strip` whitespace (ASCII range). -/
def isPySpace (c : Char) : Bool :=
  c = ' ' || c = '\t' || c = '\n' || c = '\x0d' || c = '\x0b' || c = '\x0c'

/-- Python `\w` word character (ASCII range). -/
def isWordC (c : Char) : Bool := c.isAlphanum || c = '_'

/-- Tag-name character of `(?i)[a-z0-9]`. -/
def isTagC (c : Char) : Bool := c.isAlpha || c.isDigit

def digitVal (c : Char) : Nat := c.toNat - '0'.toNat

/-- Value of a digit string, as Python `int` on the captured group. -/
def valDigits (ds : List Char) : Nat := ds.foldl (fun a c => a * 10 + digitVal c) 0

/-- `str.lower()` (ASCII). -/
def lowerStr (s : List Char) : List Char := s.map Char.toLower

/-- `str.strip()`: drop whitespace at both ends. -/
def pyStrip (s : List Char) : List Char :=
  ((s.dropWhile isPySpace).reverse.dropWhile isPySpace).reverse

/-- Boolean "p is a prefix of s". -/
def isPre : List Char → List Char → Bool
  | [], _ => true
  | _ :: _, [] => false
  | a :: as, b :: bs => a == b && isPre as bs

/-- Boolean "p occurs as a contiguous substring of s" (Python `in`). -/
def infixOf (p : List Char) : List Char → Bool
  | [] => isPre p []
  | c :: r => isPre p (c :: r) || infixOf p r

/-- Number of (possibly overlapping) occurrences of `p` in `s`. -/
def countPre (p : List Char) : List Char → Nat
  | [] => if isPre p [] then 1 else 0
  | c :: r => (if isPre p (c :: r) then 1 else 0) + countPre p r

/-- Strip the literal prefix `p` (case-sensitively). -/
def stripPre (p s : List Char) : Option (List Char) :=
  if isPre p s then some (s.drop p.length) else none

/-- Strip the prefix `p` case-insensitively (`p` is given lowercase);
models a `re.IGNORECASE` literal. -/
def stripPreCI (p s : List Char) : Option (List Char) :=
  if lowerStr (s.take p.length) = p then some (s.drop p.length) else none

/-- Skip minimally many characters up to and including the first `q`
(the behaviour of a non-greedy `.*?q` with DOTALL). -/
def findAfter (q : Char) : List Char → Option (List Char)
  | [] => none
  | c :: r => if c = q then some r else findAfter q r

/- ----------------------------------------------------------------- -/
/- Recency classifier: `within_past_week` (src/app.py lines 21-46).  -/
/- ----------------------------------------------------------------- -/

def yesterdayL : List Char := "yesterday".toList
def agoL : List Char := "ago".toList

/-- Alternatives of `(minute|min|minutes|mins)` in source order. -/
def minUnits : List (List Char) :=
  ["minute".toList, "min".toList, "minutes".toList, "mins".toList]
def hourUnits : List (List Char) :=
  ["hour".toList, "hr".toList, "hours".toList, "hrs".toList]
def dayUnits : List (List Char) := ["day".toList, "days".toList]
def weekUnits : List (List Char) := ["week".toList, "weeks".toList]

/-- After the digits of `re.match r"(\d+)\s*(u|...)\s*ago"`: skip `\s*`,
then some alternative must match whose continuation `\s*ago` also
matches (Python tries the alternatives in order and backtracks into the
alternation; success of the whole is exactly "some alternative admits
the continuation", and the captured count does not depend on which). -/
def tailUnits (units : List (List Char)) (r : List Char) : Bool :=
  let r2 := r.dropWhile isPySpace
  units.any fun u =>
    ((stripPre u r2).map fun r3 => isPre agoL (r3.dropWhile isPySpace)).getD false

/-- `re.match r"(\d+)\s*(u1|u2|..)\s*ago"` on `s`, returning the captured
count.  `\d+` is greedy and the alternatives begin with letters, so the
digit span never backtracks. -/
def matchCount (units : List (List Char)) (s : List Char) : Option Nat :=
  let ds := s.takeWhile Char.isDigit
  if ds.isEmpty then none
  else if tailUnits units (s.dropWhile Char.isDigit) then some (valDigits ds) else none

/-- Month abbreviations of `%b` (Python `calendar` order, lowercase). -/
def monthAbb : List (List Char × Nat) :=
  [("jan".toList, 1), ("feb".toList, 2), ("mar".toList, 3), ("apr".toList, 4),
   ("may".toList, 5), ("jun".toList, 6), ("jul".toList, 7), ("aug".toList, 8),
   ("sep".toList, 9), ("oct".toList, 10), ("nov".toList, 11), ("dec".toList, 12)]

/-- Full month names of `%B`.  (Python sorts the alternation by length;
since no month name is a prefix of another, at most one alternative can
match at a given position and the order is irrelevant.) -/
def monthFull : List (List Char × Nat) :=
  [("january".toList, 1), ("february".toList, 2), ("march".toList, 3),
   ("april".toList, 4), ("may".toList, 5), ("june".toList, 6),
   ("july".toList, 7), ("august".toList, 8), ("september".toList, 9),
   ("october".toList, 10), ("november".toList, 11), ("december".toList, 12)]

/-- The ordered alternatives of `%d`'s regex
`(3[01]|[12]\d|0[1-9]|[1-9]| [1-9])`, as candidate (value, rest) pairs.
The ` [1-9]` alternative is reachable only by giving back one character
of the preceding `\s+`, which produces the same end position and value
as the `[1-9]` alternative, so it is redundant and omitted. -/
def dayCands (r : List Char) : List (Nat × List Char) :=
  (match r with
   | a :: c :: rest => if a = '3' && (c = '0' || c = '1')
                       then [(30 + digitVal c, rest)] else []
   | _ => []) ++
  (match r with
   | a :: c :: rest => if (a = '1' || a = '2') && c.isDigit
                       then [(10 * digitVal a + digitVal c, rest)] else []
   | _ => []) ++
  (match r with
   | a :: c :: rest => if a = '0' && ('1' ≤ c && c ≤ '9')
                       then [(digitVal c, rest)] else []
   | _ => []) ++
  (match r with
   | c :: rest => if '1' ≤ c && c ≤ '9' then [(digitVal c, rest)] else []
   | _ => [])

/-- The `\s+%d,\s+%Y` part of the strptime regex (with the full-match
check: nothing may remain after the four year digits).  The regex
matches first and completely; the calendar validation of `datetime` is
done afterwards by `mkDate`. -/
def afterMonthRegex (r : List Char) : Option (Nat × Nat) :=
  if (r.takeWhile isPySpace).isEmpty then none else
  (dayCands (r.dropWhile isPySpace)).findSome? fun dc =>
    match dc.2 with
    | c0 :: r3 =>
      if c0 = ',' then
        if (r3.takeWhile isPySpace).isEmpty then none else
        match r3.dropWhile isPySpace with
        | [a, b, c, d] =>
          if a.isDigit && b.isDigit && c.isDigit && d.isDigit
          then some (dc.1, valDigits [a, b, c, d]) else none
        | _ => none
      else none
    | _ => none

def isLeap (y : Nat) : Bool := y % 4 = 0 && (y % 100 ≠ 0 || y % 400 = 0)

def monthLen (y m : Nat) : Nat :=
  if m = 2 then (if isLeap y then 29 else 28)
  else if m = 4 || m = 6 || m = 9 || m = 11 then 30 else 31

def monthLens (y : Nat) : List Nat :=
  [31, if isLeap y then 29 else 28, 31, 30, 31, 30, 31, 31, 30, 31, 30, 31]

/-- `date.toordinal()` for the proleptic Gregorian calendar
(Jan 1 of year 1 is day 1). -/
def toOrdinal (y m d : Nat) : Nat :=
  365 * (y - 1) + (y - 1) / 4 - (y - 1) / 100 + (y - 1) / 400 +
    ((monthLens y).take (m - 1)).sum + d

/-- `datetime(year, month, day)` validation (raises, i.e. `none`, for
year 0 or a day beyond the month length; the regex already guarantees
1 ≤ d ≤ 31, 1 ≤ m ≤ 12 and y ≤ 9999). -/
def mkDate (y m d : Nat) : Option Nat :=
  if 1 ≤ y ∧ d ≤ monthLen y m then some (toOrdinal y m d) else none

/-- The literal '.' of the `%b.` format. -/
def dotStrip (r : List Char) : Option (List Char) :=
  match r with
  | c :: t => if c = '.' then some t else none
  | [] => none

/-- One strptime format: month-name alternation (abbreviated or full),
optionally a literal '.', then `\s+%d,\s+%Y` and the full-match check,
then calendar validation.  Since no month name is a prefix of another,
running the continuation after the unique matching name is the regex's
alternation behaviour. -/
def tryFormatA (names : List (List Char × Nat)) (dot : Bool) (s : List Char) :
    Option Nat :=
  (names.findSome? fun p => (stripPreCI p.1 s).map fun r => (p.2, r)).bind
    fun mr =>
      (if dot then dotStrip mr.2 else some mr.2).bind fun r1 =>
        (afterMonthRegex r1).bind fun dy => mkDate dy.2 mr.1 dy.1

/-- The `for fmt in ("%b %d, %Y", "%B %d, %Y", "%b. %d, %Y")` loop:
first format that parses (without a `ValueError`) wins. -/
def parseAbsDate (s : List Char) : Option Nat :=
  match tryFormatA monthAbb false s with
  | some o => some o
  | none =>
    match tryFormatA monthFull false s with
    | some o => some o
    | none => tryFormatA monthAbb true s

/-- `within_past_week` (src/app.py lines 21-46).  `refOrd` is the day
ordinal of `dt.now()`; `(dt.now() - when).days = refOrd - parsedOrd`
exactly, because `when` is at midnight and `timedelta.days` floors. -/
def within_past_week (refOrd : Int) (s : List Char) : Bool :=
  if s.isEmpty then false        -- `if not date_str: return False`
  else
    let n := lowerStr (pyStrip s)
    if infixOf yesterdayL n then true
    else if (matchCount minUnits n).isSome then true
    else if (matchCount hourUnits n).isSome then true
    else
      match matchCount dayUnits n with
      | some k => decide (k ≤ 7)
      | none =>
        match matchCount weekUnits n with
        | some k => decide (k ≤ 1)
        | none =>
          -- absolute formats parse the *stripped, original-case* string
          match parseAbsDate (pyStrip s) with
          | some o => decide (refOrd - (o : Int) ≤ 7)
          | none => false

/- ----------------------------------------------------------------- -/
/- Markup sanitizer: `basic_sanitize_ul` (src/app.py lines 48-82).   -/
/- ----------------------------------------------------------------- -/

def scriptL : List Char := "script".toList
def onL : List Char := "on".toList
def hrefL : List Char := "href".toList
def jsL : List Char := "javascript:".toList
def allowedTags : List (List Char) :=
  ["ul".toList, "li".toList, "a".toList, "strong".toList,
   "em".toList, "code".toList, "br".toList]

/-- Matcher of `<\s*/\s*script\s*>` at the head of the string. -/
def tryClose (s : List Char) : Option (List Char) :=
  match s with
  | [] => none
  | c0 :: r0 =>
    if c0 = '<' then
      match r0.dropWhile isPySpace with
      | [] => none
      | c1 :: r2 =>
        if c1 = '/' then
          (stripPreCI scriptL (r2.dropWhile isPySpace)).bind fun r4 =>
            (match r4.dropWhile isPySpace with
             | [] => none
             | c2 :: r5 => if c2 = '>' then some r5 else none)
        else none
    else none

/-- Earliest position, scanning left to right, where `tryClose`
matches; returns the rest after that match (the non-greedy
`.*?<\s*/\s*script\s*>`). -/
def scanClose : List Char → Option (List Char)
  | [] => none
  | c :: r =>
    match tryClose (c :: r) with
    | some x => some x
    | none => scanClose r

/-- Head matcher of `(?is)<\s*script.*?>.*?<\s*/\s*script\s*>`:
`<`, `\s*`, `script` (ci), minimal `.*?` to the first `>`, then the
earliest closing tag.  (If the regex backtracks `.*?>` to a later `>`,
any closing tag after that later `>` is also after the first `>`, so
first-`>`-then-earliest-close is the overall non-greedy semantics.) -/
def tryScript (s : List Char) : Option (List Char) :=
  match s with
  | [] => none
  | c0 :: r0 =>
    if c0 = '<' then
      (stripPreCI scriptL (r0.dropWhile isPySpace)).bind fun r2 =>
        (findAfter '>' r2).bind fun r3 => scanClose r3
    else none

/-- Head matcher of `(?is)\s+on\w+\s*=\s*(['"]).*?\1`: one or more
whitespace, `on` (ci), one or more word chars, `\s*`, `=`, `\s*`, a
quote, then minimally up to the matching quote.  The greedy `\s+`,
`\w+`, `\s*` runs never need to backtrack because the character class
following each run is disjoint from the run's class. -/
def tryHandler (s : List Char) : Option (List Char) :=
  if (s.takeWhile isPySpace).isEmpty then none else
  (stripPreCI onL (s.dropWhile isPySpace)).bind fun r2 =>
    if (r2.takeWhile isWordC).isEmpty then none else
    match (r2.dropWhile isWordC).dropWhile isPySpace with
    | [] => none
    | c4 :: r5 =>
      if c4 = '=' then
        match r5.dropWhile isPySpace with
        | [] => none
        | q :: r7 => if q = '"' || q = '\'' then findAfter q r7 else none
      else none

/-- Head matcher of `(?i)href\s*=\s*(['"])\s*javascript:[^'"]*\1`:
the greedy `[^'"]*` stops at the first quote of either kind, which must
then equal the opening quote (no backtracking can help since `[^'"]`
matches no quote). -/
def tryJs (s : List Char) : Option (List Char) :=
  (stripPreCI hrefL s).bind fun r1 =>
    match r1.dropWhile isPySpace with
    | [] => none
    | c2 :: r3 =>
      if c2 = '=' then
        match r3.dropWhile isPySpace with
        | [] => none
        | q :: r5 =>
          if q = '"' || q = '\'' then
            (stripPreCI jsL (r5.dropWhile isPySpace)).bind fun r7 =>
              (match r7.dropWhile (fun c => c != '"' && c != '\'') with
               | [] => none
               | q2 :: r9 => if q2 = q then some r9 else none)
          else none
      else none

/-- Head matcher of `(?is)</?([a-z0-9]+)(?:\s[^>]*)?>`; returns
(tag name allowlisted?, rest).  After the name, either `>` follows
directly, or one whitespace and then everything up to the first `>`
(the greedy `[^>]*` stops exactly there; if no `>` follows, giving
characters back cannot produce one, so the match fails). -/
def tryTagCore (s : List Char) : Option (Bool × List Char) :=
  match s with
  | [] => none
  | c0 :: r0 =>
    if c0 = '<' then
      let r1 := match r0 with
                | [] => r0
                | c1 :: r => if c1 = '/' then r else r0
      let nm := r1.takeWhile isTagC
      if nm.isEmpty then none else
      let r2 := r1.dropWhile isTagC
      match r2 with
      | [] => none
      | c :: r3 =>
        if c = '>' then some (decide (lowerStr nm ∈ allowedTags), r3)
        else if isPySpace c then
          match r3.dropWhile (fun x => x != '>') with
          | [] => none
          | c4 :: rest => if c4 = '>' then some (decide (lowerStr nm ∈ allowedTags), rest)
                          else none
        else none
    else none

/-- Head matcher of `(?i)<a\b([^>]*)>`; returns the rest after the
match.  The word boundary after `a` requires the next character to be a
non-word character (at end of input the `[^>]*>` part fails anyway). -/
def tryAnchorCore (s : List Char) : Option (List Char) :=
  match s with
  | c0 :: c :: d :: r =>
    if c0 = '<' && (c = 'a' || c = 'A') then
      if isWordC d then none else
      match (d :: r).dropWhile (fun x => x != '>') with
      | [] => none
      | c4 :: rest => if c4 = '>' then some rest else none
    else none
  | _ => none

def targetEqL : List Char := "target=".toList
def relEqL : List Char := "rel=".toList
def targetApp : List Char := " target=\"_blank\"".toList
def relApp : List Char := " rel=\"noopener\"".toList

/-- `fix_link` (src/app.py lines 73-80): append `target="_blank"` when
the substring `target=` is absent, then `rel="noopener"` when `rel=` is
absent from the (possibly updated) tag; the matched tag ends in `>`. -/
def fix_link (tag : List Char) : List Char :=
  let t1 := if infixOf targetEqL tag then tag else tag.dropLast ++ targetApp ++ ['>']
  if infixOf relEqL t1 then t1 else t1.dropLast ++ relApp ++ ['>']

/-- One generic `re.sub` scan: at each position try the head matcher;
on a match emit the replacement and continue after the match, otherwise
emit the character and move one position right.  Fuel-driven so that
the kernel can evaluate it; `scanRw` below supplies sufficient fuel. -/
def scanRwF (step : List Char → Option (List Char × List Char)) :
    Nat → List Char → List Char
  | 0, s => s
  | _ + 1, [] => []
  | f + 1, c :: r =>
    match step (c :: r) with
    | some (rep, rest) => rep ++ scanRwF step f rest
    | none => c :: scanRwF step f r

def scanRw (step : List Char → Option (List Char × List Char))
    (s : List Char) : List Char :=
  scanRwF step (s.length + 1) s

def tryScriptStep (s : List Char) : Option (List Char × List Char) :=
  (tryScript s).map fun rest => ([], rest)

def tryHandlerStep (s : List Char) : Option (List Char × List Char) :=
  (tryHandler s).map fun rest => ([], rest)

def jsRepl : List Char := "href=\"#\"".toList

def tryJsStep (s : List Char) : Option (List Char × List Char) :=
  (tryJs s).map fun rest => (jsRepl, rest)

/-- Replacement of the allowlist pass: `m.group(0)` if the tag name is
allowlisted, else the empty string. -/
def tryTagStep (s : List Char) : Option (List Char × List Char) :=
  (tryTagCore s).map fun ar =>
    (if ar.1 then s.take (s.length - ar.2.length) else [], ar.2)

def tryAnchorStep (s : List Char) : Option (List Char × List Char) :=
  (tryAnchorCore s).map fun rest =>
    (fix_link (s.take (s.length - rest.length)), rest)

def removeScripts (s : List Char) : List Char := scanRw tryScriptStep s
def removeHandlers (s : List Char) : List Char := scanRw tryHandlerStep s
def fixJsHrefs (s : List Char) : List Char := scanRw tryJsStep s
def allowTags (s : List Char) : List Char := scanRw tryTagStep s
def fixLinks (s : List Char) : List Char := scanRw tryAnchorStep s

/-- `basic_sanitize_ul` (src/app.py lines 48-82): falsy (empty) input
gives the canonical empty fragment, otherwise the five substitution
passes run in source order. -/
def basic_sanitize_ul (s : List Char) : List Char :=
  if s.isEmpty then "<ul></ul>".toList
  else fixLinks (allowTags (fixJsHrefs (removeHandlers (removeScripts s))))

def relativeHit (n : List Char) : Bool :=
  infixOf yesterdayL n || (matchCount minUnits n).isSome ||
    (matchCount hourUnits n).isSome || (matchCount dayUnits n).isSome ||
    (matchCount weekUnits n).isSome

def tbL : List Char := "target=\"_blank\"".toList
def rnL : List Char := "rel=\"noopener\"".toList
def bothApp : List Char := " target=\"_blank\" rel=\"noopener\">".toList
def relCloseApp : List Char := " rel=\"noopener\">".toList
def tgtCloseApp : List Char := " target=\"_blank\">".toList

/-- Characters that can appear after the month name in a parsed
absolute date: whitespace, digits, the comma, and the dot of `%b.`. -/
def isSafeTail (c : Char) : Bool := isPySpace c || c.isDigit || c = ',' || c = '.'

def monthNamesAll : List (List Char) :=
  monthAbb.map Prod.fst ++ monthFull.map Prod.fst

/-- The per-position matcher consumes at least one character. -/
def Shrinks (step : List Char → Option (List Char × List Char)) : Prop :=
  ∀ s rep rest, step s = some (rep, rest) → rest.length < s.length

/-- Check a boolean condition at every suffix of a string (used to
state the input classes of the idempotence claim decidably). -/
def onSuffixes (ok : List Char → Bool) : List Char → Bool
  | [] => ok []
  | c :: r => ok (c :: r) && onSuffixes ok r

/-- The fragment has no match of the script-removal pattern. -/
def scriptFree (s : List Char) : Bool :=
  onSuffixes (fun t => (tryScript t).isNone) s

/-- The fragment has no match of the event-handler-removal pattern. -/
def handlerFree (s : List Char) : Bool :=
  onSuffixes (fun t => (tryHandler t).isNone) s

/-- The fragment has no match of the `javascript:`-href pattern. -/
def jsFree (s : List Char) : Bool :=
  onSuffixes (fun t => (tryJs t).isNone) s

/-- Every tag-regex match in the fragment has an allowlisted name. -/
def allowlistOnly (s : List Char) : Bool :=
  onSuffixes (fun t =>
    match tryTagCore t with
    | some br => br.1
    | none => true) s

/-- Every anchor-regex match in the fragment already contains the
substrings `target=` and `rel=`. -/
def anchorsComplete (s : List Char) : Bool :=
  onSuffixes (fun t =>
    match tryAnchorCore t with
    | some rest => infixOf targetEqL (t.take (t.length - rest.length)) &&
                   infixOf relEqL (t.take (t.length - rest.length))
    | none => true) s

/- ----------------------------------------------------------------- -/
/- Substring predicates and their elementary theory.                 -/
/- ----------------------------------------------------------------- -/

def listPre (p s : List Char) : Prop := ∃ t, p ++ t = s

def listSuf (p s : List Char) : Prop := ∃ t, t ++ p = s

def listInf (p s : List Char) : Prop := ∃ u v, u ++ p ++ v = s

theorem isPre_iff {p s : List Char} : isPre p s = true ↔ listPre p s := by
  induction p generalizing s with
  | nil => simp [isPre, listPre]
  | cons a as ih =>
    cases s with
    | nil =>
      simp only [isPre, listPre]
      constructor
      · intro h; cases h
      · rintro ⟨t, ht⟩; cases ht
    | cons b bs =>
      simp only [isPre, Bool.and_eq_true, beq_iff_eq, ih, listPre]
      constructor
      · rintro ⟨rfl, t, rfl⟩; exact ⟨t, rfl⟩
      · rintro ⟨t, ht⟩
        injection ht with h1 h2
        exact ⟨h1, t, h2⟩

theorem infixOf_iff {p s : List Char} : infixOf p s = true ↔ listInf p s := by
  induction s with
  | nil =>
    simp only [infixOf, isPre_iff, listPre, listInf]
    constructor
    · rintro ⟨t, ht⟩
      exact ⟨[], t, ht⟩
    · rintro ⟨u, v, huv⟩
      rcases List.append_eq_nil.mp ((List.append_assoc u p v) ▸ huv) with ⟨h1, h2⟩
      rcases List.append_eq_nil.mp h2 with ⟨h3, h4⟩
      exact ⟨v, by simp [h3, h4]⟩
  | cons c r ih =>
    simp only [infixOf, Bool.or_eq_true, isPre_iff, listPre, ih, listInf]
    constructor
    · rintro (⟨t, ht⟩ | ⟨u, v, huv⟩)
      · exact ⟨[], t, ht⟩
      · exact ⟨c :: u, v, by simp [← huv]⟩
    · rintro ⟨u, v, huv⟩
      cases u with
      | nil => exact Or.inl ⟨v, by simpa using huv⟩
      | cons d u' =>
        injection huv with h1 h2
        exact Or.inr ⟨u', v, h2⟩

theorem listPre_length {p s : List Char} (h : listPre p s) : p.length ≤ s.length := by
  rcases h with ⟨t, rfl⟩; simp

theorem listPre_trans {a b c : List Char} (h1 : listPre a b) (h2 : listPre b c) :
    listPre a c := by
  rcases h1 with ⟨t, rfl⟩; rcases h2 with ⟨u, rfl⟩
  exact ⟨t ++ u, by simp⟩

theorem listInf_of_pre {p s : List Char} (h : listPre p s) : listInf p s := by
  rcases h with ⟨t, rfl⟩; exact ⟨[], t, rfl⟩

theorem listInf_of_pre_suf {p x s : List Char} (h1 : listPre p x) (h2 : listSuf x s) :
    listInf p s := by
  rcases h1 with ⟨t, rfl⟩; rcases h2 with ⟨u, rfl⟩
  exact ⟨u, t, by simp⟩

theorem listInf_of_inf_pre {p x s : List Char} (h1 : listInf p x) (h2 : listPre x s) :
    listInf p s := by
  rcases h1 with ⟨u, v, rfl⟩; rcases h2 with ⟨t, rfl⟩
  exact ⟨u, v ++ t, by simp⟩

theorem listInf_trans {a b c : List Char} (h1 : listInf a b) (h2 : listInf b c) :
    listInf a c := by
  rcases h1 with ⟨u, v, rfl⟩; rcases h2 with ⟨u', v', rfl⟩
  exact ⟨u' ++ u, v ++ v', by simp⟩

theorem mem_of_listInf {p s : List Char} {c : Char} (h : listInf p s) (hc : c ∈ p) :
    c ∈ s := by
  rcases h with ⟨u, v, rfl⟩; simp [hc]

theorem listSuf_drop (n : Nat) (s : List Char) : listSuf (s.drop n) s :=
  ⟨s.take n, List.take_append_drop n s⟩

theorem listSuf_dropWhile (p : Char → Bool) (s : List Char) :
    listSuf (s.dropWhile p) s :=
  ⟨s.takeWhile p, List.takeWhile_append_dropWhile p s⟩

theorem listSuf_trans {a b c : List Char} (h1 : listSuf a b) (h2 : listSuf b c) :
    listSuf a c := by
  rcases h1 with ⟨t, rfl⟩; rcases h2 with ⟨u, rfl⟩
  exact ⟨u ++ t, by simp⟩

theorem listSuf_refl (s : List Char) : listSuf s s := ⟨[], rfl⟩

theorem mem_of_listSuf {t s : List Char} {c : Char} (h : listSuf t s) (hc : c ∈ t) :
    c ∈ s := by
  rcases h with ⟨u, rfl⟩; simp [hc]

theorem takeAppendSelf (a b : List Char) : (a ++ b).take a.length = a := by
  induction a with
  | nil => rfl
  | cons c r ih => simp [ih]

theorem dropAppendSelf (a b : List Char) : (a ++ b).drop a.length = b := by
  induction a with
  | nil => rfl
  | cons c r ih => simp [ih]

theorem listSuf_take_append {t s : List Char} (h : listSuf t s) :
    s.take (s.length - t.length) ++ t = s := by
  rcases h with ⟨u, rfl⟩
  have hl : (u ++ t).length - t.length = u.length := by simp
  rw [hl, takeAppendSelf]

/-- A prefix of `a ++ b` is a prefix of `a`, or extends `a` into `b`. -/
theorem preAppendSplit {p a b : List Char} (h : listPre p (a ++ b)) :
    listPre p a ∨ (listPre a p ∧ listPre (p.drop a.length) b) := by
  induction a generalizing p with
  | nil => exact Or.inr ⟨⟨p, rfl⟩, by simpa using h⟩
  | cons c a' ih =>
    cases p with
    | nil => exact Or.inl ⟨c :: a' , rfl⟩
    | cons d p' =>
      rcases h with ⟨t, ht⟩
      injection ht with h1 h2
      subst h1
      rcases ih ⟨t, h2⟩ with h3 | ⟨⟨u, hu⟩, h4⟩
      · rcases h3 with ⟨v, hv⟩
        exact Or.inl ⟨v, by simp [← hv]⟩
      · refine Or.inr ⟨⟨u, by simp [← hu]⟩, ?_⟩
        simpa using h4

/-- An infix of `a ++ b` lies in `a`, lies in `b`, or straddles the
border with a nonempty suffix of `a` and a nonempty prefix of `b`. -/
theorem infAppendSplit {p a b : List Char} (h : listInf p (a ++ b)) :
    listInf p a ∨ listInf p b ∨
      ∃ p1 p2, p1 ++ p2 = p ∧ p1 ≠ [] ∧ p2 ≠ [] ∧ listSuf p1 a ∧ listPre p2 b := by
  induction a generalizing p with
  | nil => exact Or.inr (Or.inl (by simpa using h))
  | cons c a' ih =>
    rcases h with ⟨u, v, huv⟩
    cases u with
    | nil =>
      cases p with
      | nil => exact Or.inl ⟨[], c :: a', rfl⟩
      | cons d p' =>
        have huv' : d :: (p' ++ v) = c :: (a' ++ b) := by simpa using huv
        injection huv' with h1 h2
        subst h1
        rcases preAppendSplit ⟨v, h2⟩ with h3 | ⟨⟨w, hw⟩, h4⟩
        · rcases h3 with ⟨t, ht⟩
          exact Or.inl ⟨[], t, by simp [← ht]⟩
        · have hwd : w = p'.drop a'.length := by
            rw [← hw]; exact (dropAppendSelf a' w).symm
          by_cases hz : p'.drop a'.length = []
          · have hp : p' = a' := by rw [← hw, hwd, hz, List.append_nil]
            exact Or.inl ⟨[], [], by simp [hp]⟩
          · refine Or.inr (Or.inr ⟨d :: a', p'.drop a'.length, ?_, by simp, hz,
              listSuf_refl _, h4⟩)
            rw [← hwd]
            simp [hw]
    | cons e u' =>
      injection huv with h1 h2
      rcases ih ⟨u', v, h2⟩ with h3 | h4 | ⟨p1, p2, hp, hp1, hp2, ⟨t, ht⟩, h6⟩
      · rcases h3 with ⟨x, y, hxy⟩
        exact Or.inl ⟨e :: x, y, by simp [← hxy, h1]⟩
      · exact Or.inr (Or.inl h4)
      · exact Or.inr (Or.inr ⟨p1, p2, hp, hp1, hp2, ⟨e :: t, by simp [← ht, h1]⟩, h6⟩)

theorem preOfPreLe {a b t : List Char} (h1 : listPre a t) (h2 : listPre b t)
    (hl : a.length ≤ b.length) : listPre a b := by
  rcases h1 with ⟨u, rfl⟩
  rcases h2 with ⟨v, hv⟩
  have : b = (a ++ u).take b.length := by rw [← hv]; exact (takeAppendSelf b v).symm
  refine ⟨b.drop a.length, ?_⟩
  rw [this, List.take_append_eq_append_take]
  have h3 : a.take b.length = a := List.take_of_length_le hl
  rw [h3]
  congr 1
  rw [this]
  simp [List.drop_take]

/- ----------------------------------------------------------------- -/
/- Generic facts about the substitution scan.                        -/
/- ----------------------------------------------------------------- -/


theorem scanRwF_congr {step : List Char → Option (List Char × List Char)}
    (hs : Shrinks step) :
    ∀ n s f g, s.length ≤ n → s.length < f → s.length < g →
      scanRwF step f s = scanRwF step g s := by
  intro n
  induction n with
  | zero =>
    intro s f g h1 h2 h3
    have hnil : s = [] := List.eq_nil_of_length_eq_zero (by omega)
    subst hnil
    cases f with
    | zero => omega
    | succ f' =>
      cases g with
      | zero => omega
      | succ g' => rfl
  | succ n ih =>
    intro s f g h1 h2 h3
    cases s with
    | nil =>
      cases f with
      | zero => omega
      | succ f' =>
        cases g with
        | zero => omega
        | succ g' => rfl
    | cons c r =>
      cases f with
      | zero => omega
      | succ f' =>
        cases g with
        | zero => omega
        | succ g' =>
          show scanRwF step (f' + 1) (c :: r) = scanRwF step (g' + 1) (c :: r)
          simp only [scanRwF]
          cases hstep : step (c :: r) with
          | none =>
            have hr := ih r f' g' (by simp at h1; omega)
              (by simp at h2; omega) (by simp at h3; omega)
            simp [hr]
          | some pr =>
            obtain ⟨rep, rest⟩ := pr
            have hlt := hs _ _ _ hstep
            have hr := ih rest f' g' (by simp at h1 hlt ⊢; omega)
              (by simp at h2 hlt ⊢; omega) (by simp at h3 hlt ⊢; omega)
            simp [hr]

theorem scanRw_cons {step : List Char → Option (List Char × List Char)}
    (hs : Shrinks step) (c : Char) (r : List Char) :
    scanRw step (c :: r) =
      match step (c :: r) with
      | some pr => pr.1 ++ scanRw step pr.2
      | none => c :: scanRw step r := by
  show scanRwF step ((c :: r).length + 1) (c :: r) = _
  simp only [List.length_cons, scanRwF]
  cases hstep : step (c :: r) with
  | none =>
    have := scanRwF_congr hs r.length r (r.length + 1) (r.length + 1)
      (le_refl _) (by omega) (by omega)
    simp [scanRw, this]
  | some pr =>
    obtain ⟨rep, rest⟩ := pr
    have hlt := hs _ _ _ hstep
    have := scanRwF_congr hs rest.length rest (r.length + 1) (rest.length + 1)
      (le_refl _) (by simp at hlt; omega) (by omega)
    simp [scanRw, this]

/-- If every head match (at any scanned suffix) reproduces exactly the
text it consumed, the scan is the identity. -/
theorem scanRw_id {step : List Char → Option (List Char × List Char)}
    (hs : Shrinks step) :
    ∀ n s, s.length ≤ n →
      (∀ t, listSuf t s → ∀ rep rest, step t = some (rep, rest) → rep ++ rest = t) →
      scanRw step s = s := by
  intro n
  induction n with
  | zero =>
    intro s h1 _
    have : s = [] := List.eq_nil_of_length_eq_zero (by omega)
    subst this; rfl
  | succ n ih =>
    intro s h1 h2
    cases s with
    | nil => rfl
    | cons c r =>
      rw [scanRw_cons hs]
      cases hstep : step (c :: r) with
      | none =>
        have hr := ih r (by simp at h1; omega)
          (fun t ht => h2 t (listSuf_trans ht ⟨[c], rfl⟩))
        simp [hr]
      | some pr =>
        obtain ⟨rep, rest⟩ := pr
        have heq := h2 _ (listSuf_refl _) _ _ hstep
        have hsuf : listSuf rest (c :: r) := ⟨rep, heq⟩
        have hlt := hs _ _ _ hstep
        have hr := ih rest (by simp at h1 hlt ⊢; omega)
          (fun t ht => h2 t (listSuf_trans ht hsuf))
        simp [hr, heq]

/- ----------------------------------------------------------------- -/
/- Each head matcher consumes at least one character and returns a   -/
/- suffix of its input.                                              -/
/- ----------------------------------------------------------------- -/

theorem listSuf_length {t s : List Char} (h : listSuf t s) : t.length ≤ s.length := by
  rcases h with ⟨u, rfl⟩; simp

theorem lenDropWhile (p : Char → Bool) (s : List Char) :
    (s.dropWhile p).length ≤ s.length :=
  listSuf_length (listSuf_dropWhile p s)

theorem findAfter_suf {q : Char} {s r : List Char} (h : findAfter q s = some r) :
    listSuf r s ∧ r.length < s.length := by
  induction s with
  | nil => cases h
  | cons c s0 ih =>
    unfold findAfter at h
    by_cases hc : c = q
    · simp only [hc, if_pos rfl] at h
      injection h with h
      subst h
      exact ⟨⟨[c], rfl⟩, by simp⟩
    · simp only [if_neg hc] at h
      obtain ⟨h1, h2⟩ := ih h
      exact ⟨listSuf_trans h1 ⟨[c], rfl⟩, by simp; omega⟩

theorem stripPreCI_some {p s r : List Char} (h : stripPreCI p s = some r) :
    r = s.drop p.length ∧ p.length ≤ s.length ∧
      s = s.take p.length ++ r ∧ lowerStr (s.take p.length) = p := by
  unfold stripPreCI at h
  split at h
  next hc =>
    injection h with h
    have hl : p.length ≤ s.length := by
      have := congrArg List.length hc
      simp [lowerStr] at this
      omega
    exact ⟨h.symm, hl, by rw [← h]; exact (List.take_append_drop _ s).symm, hc⟩
  next => cases h

theorem stripPre_some {p s r : List Char} (h : stripPre p s = some r) :
    r = s.drop p.length ∧ s = p ++ r := by
  unfold stripPre at h
  split at h
  next hc =>
    injection h with h
    rcases isPre_iff.mp hc with ⟨t, ht⟩
    subst h
    constructor
    · rfl
    · conv in s.drop p.length => rw [← ht]
      rw [dropAppendSelf, ht]
  next => cases h

theorem listSuf_suffix_drop {s r : List Char} (h : r = s.drop n) : listSuf r s := by
  subst h; exact listSuf_drop n s

theorem tryClose_sufLen {s r : List Char} (h : tryClose s = some r) :
    listSuf r s ∧ r.length < s.length := by
  unfold tryClose at h
  split at h
  · cases h
  next c0 r0 =>
    split at h
    case isFalse => cases h
    next hc =>
      split at h
      · cases h
      next c1 r2 heq =>
        split at h
        case isFalse => cases h
        next hc1 =>
          cases hsp : stripPreCI scriptL (r2.dropWhile isPySpace) with
          | none => rw [hsp] at h; cases h
          | some r4 =>
            rw [hsp] at h
            simp only [Option.some_bind] at h
            split at h
            · cases h
            next c2 r5 heq2 =>
              split at h
              case isFalse => cases h
              next hc2 =>
                injection h with h
                subst h
                -- length chain: r5 < dropWhile r4 ≤ r4 ≤ dropWhile r2 ≤ r2 < dropWhile r0 ≤ r0 < s
                obtain ⟨hr4, hl4, _, _⟩ := stripPreCI_some hsp
                have l1 : r5.length + 1 = (r4.dropWhile isPySpace).length := by
                  rw [heq2]; simp
                have l2 : (r4.dropWhile isPySpace).length ≤ r4.length :=
                  lenDropWhile _ _
                have l3 : r4.length ≤ (r2.dropWhile isPySpace).length := by
                  rw [hr4]; simp
                have l4 : (r2.dropWhile isPySpace).length ≤ r2.length :=
                  lenDropWhile _ _
                have l5 : r2.length + 1 = (r0.dropWhile isPySpace).length := by
                  rw [heq]; simp
                have l6 : (r0.dropWhile isPySpace).length ≤ r0.length :=
                  lenDropWhile _ _
                refine ⟨?_, by simp; omega⟩
                have s1 : listSuf r5 (r4.dropWhile isPySpace) := by
                  rw [heq2]; exact ⟨[c2], rfl⟩
                have s2 : listSuf (r4.dropWhile isPySpace) r4 := listSuf_dropWhile _ _
                have s3 : listSuf r4 (r2.dropWhile isPySpace) := listSuf_suffix_drop hr4
                have s4 : listSuf (r2.dropWhile isPySpace) r2 := listSuf_dropWhile _ _
                have s5 : listSuf r2 (r0.dropWhile isPySpace) := by
                  rw [heq]; exact ⟨[c1], rfl⟩
                have s6 : listSuf (r0.dropWhile isPySpace) r0 := listSuf_dropWhile _ _
                have s7 : listSuf r0 (c0 :: r0) := ⟨[c0], rfl⟩
                exact listSuf_trans s1 (listSuf_trans s2 (listSuf_trans s3
                  (listSuf_trans s4 (listSuf_trans s5 (listSuf_trans s6 s7)))))

theorem scanClose_sufLen {s r : List Char} (h : scanClose s = some r) :
    listSuf r s ∧ r.length < s.length := by
  induction s with
  | nil => cases h
  | cons c s0 ih =>
    unfold scanClose at h
    cases htc : tryClose (c :: s0) with
    | some x =>
      rw [htc] at h
      injection h with h
      subst h
      exact tryClose_sufLen htc
    | none =>
      rw [htc] at h
      obtain ⟨h1, h2⟩ := ih h
      exact ⟨listSuf_trans h1 ⟨[c], rfl⟩, by simp; omega⟩

theorem tryScript_sufLen {s r : List Char} (h : tryScript s = some r) :
    listSuf r s ∧ r.length < s.length := by
  unfold tryScript at h
  split at h
  · cases h
  next c0 r0 =>
    split at h
    case isFalse => cases h
    next hc =>
      cases hsp : stripPreCI scriptL (r0.dropWhile isPySpace) with
      | none => rw [hsp] at h; cases h
      | some r2 =>
        rw [hsp] at h
        simp only [Option.some_bind] at h
        cases hfa : findAfter '>' r2 with
        | none => rw [hfa] at h; cases h
        | some r3 =>
          rw [hfa] at h
          simp only [Option.some_bind] at h
          obtain ⟨hr2, hl2, _, _⟩ := stripPreCI_some hsp
          obtain ⟨sfa, lfa⟩ := findAfter_suf hfa
          obtain ⟨ssc, lsc⟩ := scanClose_sufLen h
          have s2 : listSuf r2 (r0.dropWhile isPySpace) := listSuf_suffix_drop hr2
          have s3 : listSuf (r0.dropWhile isPySpace) r0 := listSuf_dropWhile _ _
      
      
        
          refine ⟨listSuf_trans ssc (listSuf_trans sfa (listSuf_trans s2
            (listSuf_trans s3 ⟨[c0], rfl⟩))), ?_⟩
          have := lenDropWhile isPySpace r0
          have := listSuf_length s2
          simp
          omega

theorem tryScript_head {s r : List Char} (h : tryScript s = some r) :
    ∃ r0, s = '<' :: r0 := by
  unfold tryScript at h
  split at h
  · cases h
  next c0 r0 =>
    split at h
    next hc => exact ⟨r0, by rw [hc]⟩
    case isFalse => cases h

theorem dropWhile_ne_lt {p : Char → Bool} {s : List Char}
    (h : (s.takeWhile p).isEmpty = false) :
    (s.dropWhile p).length < s.length := by
  have hsplit := List.takeWhile_append_dropWhile p s
  have hlen : (s.takeWhile p).length + (s.dropWhile p).length = s.length := by
    have h2 := congrArg List.length hsplit
    simp only [List.length_append] at h2
    exact h2
  cases hw : s.takeWhile p with
  | nil => rw [hw] at h; simp at h
  | cons a b =>
    rw [hw] at hlen
    simp at hlen
    omega

theorem tryHandler_sufLen {s r : List Char} (h : tryHandler s = some r) :
    listSuf r s ∧ r.length < s.length := by
  unfold tryHandler at h
  split at h
  · cases h
  next hws =>
    cases hsp : stripPreCI onL (s.dropWhile isPySpace) with
    | none => rw [hsp] at h; cases h
    | some r2 =>
      rw [hsp] at h
      simp only [Option.some_bind] at h
      split at h
      · cases h
      next hw2 =>
        split at h
        · cases h
        next c4 r5 heq =>
          split at h
          case isFalse => cases h
          next hc4 =>
            split at h
            · cases h
            next q r7 heq2 =>
              split at h
              case isFalse => cases h
              next hq =>
                obtain ⟨sfa, lfa⟩ := findAfter_suf h
                obtain ⟨hr2, hl2, _, _⟩ := stripPreCI_some hsp
                -- assemble the suffix chain down from s
                have s1 : listSuf r7 (r5.dropWhile isPySpace) := by
                  rw [heq2]; exact ⟨[q], rfl⟩
                have s2 : listSuf (r5.dropWhile isPySpace) r5 := listSuf_dropWhile _ _
                have s3 : listSuf r5 ((r2.dropWhile isWordC).dropWhile isPySpace) := by
                  rw [heq]; exact ⟨[c4], rfl⟩
                have s4 : listSuf ((r2.dropWhile isWordC).dropWhile isPySpace) r2 :=
                  listSuf_trans (listSuf_dropWhile _ _) (listSuf_dropWhile _ _)
                have s5 : listSuf r2 (s.dropWhile isPySpace) := listSuf_suffix_drop hr2
                have s6 : listSuf (s.dropWhile isPySpace) s := listSuf_dropWhile _ _
                have hsuf : listSuf r s :=
                  listSuf_trans sfa (listSuf_trans s1 (listSuf_trans s2
                    (listSuf_trans s3 (listSuf_trans s4 (listSuf_trans s5 s6)))))
                refine ⟨hsuf, ?_⟩
                have hlt := dropWhile_ne_lt (by simpa using hws)
                have := listSuf_length (listSuf_trans sfa (listSuf_trans s1
                  (listSuf_trans s2 (listSuf_trans s3 (listSuf_trans s4 s5)))))
                omega

/-- A successful handler match requires an `=` somewhere in the input. -/
theorem tryHandler_mem_eq {s r : List Char} (h : tryHandler s = some r) :
    '=' ∈ s := by
  unfold tryHandler at h
  split at h
  · cases h
  next hws =>
    cases hsp : stripPreCI onL (s.dropWhile isPySpace) with
    | none => rw [hsp] at h; cases h
    | some r2 =>
      rw [hsp] at h
      simp only [Option.some_bind] at h
      split at h
      · cases h
      next hw2 =>
        split at h
        · cases h
        next c4 r5 heq =>
          split at h
          case isFalse => cases h
          next hc4 =>
            obtain ⟨hr2, _, _, _⟩ := stripPreCI_some hsp
            have m1 : '=' ∈ (r2.dropWhile isWordC).dropWhile isPySpace := by
              rw [heq, ← hc4]; simp
            have s4 : listSuf ((r2.dropWhile isWordC).dropWhile isPySpace) r2 :=
              listSuf_trans (listSuf_dropWhile _ _) (listSuf_dropWhile _ _)
            have s5 : listSuf r2 (s.dropWhile isPySpace) := listSuf_suffix_drop hr2
            have s6 : listSuf (s.dropWhile isPySpace) s := listSuf_dropWhile _ _
            exact mem_of_listSuf (listSuf_trans s4 (listSuf_trans s5 s6)) m1

theorem tryJs_sufLen {s r : List Char} (h : tryJs s = some r) :
    listSuf r s ∧ r.length < s.length := by
  unfold tryJs at h
  cases hsp : stripPreCI hrefL s with
  | none => rw [hsp] at h; cases h
  | some r1 =>
    rw [hsp] at h
    simp only [Option.some_bind] at h
    split at h
    · cases h
    next c2 r3 heq =>
      split at h
      case isFalse => cases h
      next hc2 =>
        split at h
        · cases h
        next q r5 heq2 =>
          split at h
          case isFalse => cases h
          next hq =>
            cases hsp2 : stripPreCI jsL (r5.dropWhile isPySpace) with
            | none => rw [hsp2] at h; cases h
            | some r7 =>
              rw [hsp2] at h
              simp only [Option.some_bind] at h
              split at h
              · cases h
              next q2 r9 heq3 =>
                split at h
                case isFalse => cases h
                next hq2 =>
                  injection h with h
                  subst h
                  obtain ⟨hr1, hl1, _, _⟩ := stripPreCI_some hsp
                  obtain ⟨hr7, hl7, _, _⟩ := stripPreCI_some hsp2
                  have s1 : listSuf r9 (r7.dropWhile fun c => c != '"' && c != '\'') := by
                    rw [heq3]; exact ⟨[q2], rfl⟩
                  have s2 : listSuf (r7.dropWhile fun c => c != '"' && c != '\'') r7 :=
                    listSuf_dropWhile _ _
                  have s3 : listSuf r7 (r5.dropWhile isPySpace) := listSuf_suffix_drop hr7
                  have s4 : listSuf (r5.dropWhile isPySpace) r5 := listSuf_dropWhile _ _
                  have s5 : listSuf r5 (r3.dropWhile isPySpace) := by
                    rw [heq2]; exact ⟨[q], rfl⟩
                  have s6 : listSuf (r3.dropWhile isPySpace) r3 := listSuf_dropWhile _ _
                  have s7 : listSuf r3 (r1.dropWhile isPySpace) := by
                    rw [heq]; exact ⟨[c2], rfl⟩
                  have s8 : listSuf (r1.dropWhile isPySpace) r1 := listSuf_dropWhile _ _
                  have s9 : listSuf r1 s := listSuf_suffix_drop hr1
                  have hsuf : listSuf r9 s :=
                    listSuf_trans s1 (listSuf_trans s2 (listSuf_trans s3
                      (listSuf_trans s4 (listSuf_trans s5 (listSuf_trans s6
                        (listSuf_trans s7 (listSuf_trans s8 s9)))))))
                  refine ⟨hsuf, ?_⟩
                  have l1 := listSuf_length (listSuf_trans s1 (listSuf_trans s2
                    (listSuf_trans s3 (listSuf_trans s4 (listSuf_trans s5
                      (listSuf_trans s6 (listSuf_trans s7 s8)))))))
                  have l2 : r1.length = s.length - hrefL.length := by rw [hr1]; simp
                  have l3 : (0:Nat) < hrefL.length := by decide
                  omega

theorem tryJs_mem_eq {s r : List Char} (h : tryJs s = some r) : '=' ∈ s := by
  unfold tryJs at h
  cases hsp : stripPreCI hrefL s with
  | none => rw [hsp] at h; cases h
  | some r1 =>
    rw [hsp] at h
    simp only [Option.some_bind] at h
    split at h
    · cases h
    next c2 r3 heq =>
      split at h
      case isFalse => cases h
      next hc2 =>
        obtain ⟨hr1, _, _, _⟩ := stripPreCI_some hsp
        have m1 : '=' ∈ r1.dropWhile isPySpace := by rw [heq, ← hc2]; simp
        exact mem_of_listSuf (listSuf_trans (listSuf_dropWhile _ _)
          (listSuf_suffix_drop hr1)) m1

theorem tryTagCore_sufLen {s : List Char} {b : Bool} {r : List Char}
    (h : tryTagCore s = some (b, r)) :
    listSuf r s ∧ r.length < s.length := by
  unfold tryTagCore at h
  split at h
  · cases h
  next c0 r0 =>
    split at h
    case isFalse => cases h
    next hc =>
      simp only [] at h
      split at h
      · cases h
      next hnm =>
        -- name r1 for the post-slash list
        revert h
        generalize hr1 :
          (match r0 with
           | [] => r0
           | c1 :: r => if c1 = '/' then r else r0) = r1
        intro h
        have hr1suf : listSuf r1 r0 := by
          rw [← hr1]
          cases r0 with
          | nil => exact listSuf_refl _
          | cons c1 rr =>
            by_cases hc1 : c1 = '/'
            · simp only [hc1, if_pos rfl]
              exact ⟨['/'], rfl⟩
            · simp only [if_neg hc1]
              exact listSuf_refl _
        split at h
        · cases h
        next c r3 heq =>
          have s3 : listSuf r3 r1 := by
            have h5 : listSuf (c :: r3) r1 := by
              rw [← heq]; exact listSuf_dropWhile _ _
            exact listSuf_trans ⟨[c], rfl⟩ h5
          have l3 : r3.length < r1.length + 1 := by
            have := listSuf_length s3; omega
          have l1 : r1.length ≤ r0.length := listSuf_length hr1suf
          split at h
          next hgt =>
            simp only [Option.some.injEq, Prod.mk.injEq] at h
            obtain ⟨hb, hrr⟩ := h
            subst hrr
            refine ⟨listSuf_trans s3 (listSuf_trans hr1suf ⟨[c0], rfl⟩), ?_⟩
            simp
            omega
          next hgt =>
            split at h
            case isFalse => cases h
            next hws =>
              split at h
              · cases h
              next c4 rest heq2 =>
                split at h
                case isFalse => cases h
                next hc4 =>
                  simp only [Option.some.injEq, Prod.mk.injEq] at h
                  obtain ⟨hb, hrr⟩ := h
                  subst hrr
                  have s4 : listSuf rest r3 := by
                    have h5 : listSuf (c4 :: rest) r3 := by
                      rw [← heq2]; exact listSuf_dropWhile _ _
                    exact listSuf_trans ⟨[c4], rfl⟩ h5
                  have l4 := listSuf_length s4
                  refine ⟨listSuf_trans s4 (listSuf_trans s3
                    (listSuf_trans hr1suf ⟨[c0], rfl⟩)), ?_⟩
                  simp
                  omega

theorem tryTagCore_head {s : List Char} {b : Bool} {r : List Char}
    (h : tryTagCore s = some (b, r)) : ∃ r0, s = '<' :: r0 := by
  unfold tryTagCore at h
  split at h
  · cases h
  next c0 r0 =>
    split at h
    next hc => exact ⟨r0, by rw [hc]⟩
    case isFalse => cases h

theorem tryAnchorCore_sufLen {s r : List Char} (h : tryAnchorCore s = some r) :
    listSuf r s ∧ r.length < s.length := by
  cases s with
  | nil => exact absurd h (by simp [tryAnchorCore])
  | cons c0 s1 =>
    cases s1 with
    | nil => exact absurd h (by simp [tryAnchorCore])
    | cons c s2 =>
      cases s2 with
      | nil => exact absurd h (by simp [tryAnchorCore])
      | cons d rtail =>
        simp only [tryAnchorCore] at h
        split at h
        case isFalse => cases h
        case isTrue hc =>
          cases hb : isWordC d with
          | true => rw [hb] at h; simp at h
          | false =>
            rw [hb] at h
            simp only [Bool.false_eq_true, if_false] at h
            split at h
            · cases h
            · rename_i c4 rest heq2
              split at h
              · rename_i hc4
                injection h with h
                subst h
                have s4 : listSuf rest (d :: rtail) := by
                  have h5 : listSuf (c4 :: rest) (d :: rtail) := by
                    rw [← heq2]; exact listSuf_dropWhile _ _
                  exact listSuf_trans ⟨[c4], rfl⟩ h5
                have l4 := listSuf_length s4
                simp at l4
                refine ⟨listSuf_trans s4 ⟨[c0, c], rfl⟩, ?_⟩
                simp
                omega
              · cases h

theorem tryAnchorCore_head {s r : List Char} (h : tryAnchorCore s = some r) :
    ∃ c r0, s = '<' :: c :: r0 := by
  cases s with
  | nil => exact absurd h (by simp [tryAnchorCore])
  | cons c0 s1 =>
    cases s1 with
    | nil => exact absurd h (by simp [tryAnchorCore])
    | cons c s2 =>
      cases s2 with
      | nil => exact absurd h (by simp [tryAnchorCore])
      | cons d rtail =>
        simp only [tryAnchorCore] at h
        split at h
        case isTrue hc =>
          simp only [Bool.and_eq_true, decide_eq_true_eq] at hc
          exact ⟨c, d :: rtail, by rw [hc.1]⟩
        case isFalse => cases h

/- ----------------------------------------------------------------- -/
/- The five passes shrink, and identity conditions for each.         -/
/- ----------------------------------------------------------------- -/

theorem shrinks_script : Shrinks tryScriptStep := by
  intro s rep rest h
  unfold tryScriptStep at h
  cases hts : tryScript s with
  | none => rw [hts] at h; cases h
  | some r =>
    rw [hts] at h
    injection h with h
    have h2 := congrArg Prod.snd h
    simp at h2
    subst h2
    exact (tryScript_sufLen hts).2

theorem shrinks_handler : Shrinks tryHandlerStep := by
  intro s rep rest h
  unfold tryHandlerStep at h
  cases hts : tryHandler s with
  | none => rw [hts] at h; cases h
  | some r =>
    rw [hts] at h
    injection h with h
    have h2 := congrArg Prod.snd h
    simp at h2
    subst h2
    exact (tryHandler_sufLen hts).2

theorem shrinks_js : Shrinks tryJsStep := by
  intro s rep rest h
  unfold tryJsStep at h
  cases hts : tryJs s with
  | none => rw [hts] at h; cases h
  | some r =>
    rw [hts] at h
    injection h with h
    have h2 := congrArg Prod.snd h
    simp at h2
    subst h2
    exact (tryJs_sufLen hts).2

theorem shrinks_tag : Shrinks tryTagStep := by
  intro s rep rest h
  unfold tryTagStep at h
  cases hts : tryTagCore s with
  | none => rw [hts] at h; cases h
  | some br =>
    rw [hts] at h
    injection h with h
    have h2 := congrArg Prod.snd h
    simp at h2
    subst h2
    exact (tryTagCore_sufLen (b := br.1) (by rw [hts])).2

theorem shrinks_anchor : Shrinks tryAnchorStep := by
  intro s rep rest h
  unfold tryAnchorStep at h
  cases hts : tryAnchorCore s with
  | none => rw [hts] at h; cases h
  | some r =>
    rw [hts] at h
    injection h with h
    have h2 := congrArg Prod.snd h
    simp at h2
    subst h2
    exact (tryAnchorCore_sufLen hts).2


theorem onSuffixes_all {ok : List Char → Bool} {s : List Char}
    (h : onSuffixes ok s = true) : ∀ t, listSuf t s → ok t = true := by
  induction s with
  | nil =>
    intro t ht
    rcases ht with ⟨u, hu⟩
    rcases List.append_eq_nil.mp hu with ⟨h1, h2⟩
    subst h2
    exact h
  | cons c r ih =>
    simp only [onSuffixes, Bool.and_eq_true] at h
    intro t ht
    rcases ht with ⟨u, hu⟩
    cases u with
    | nil =>
      have h3 : t = c :: r := by simpa using hu
      rw [h3]
      exact h.1
    | cons d u' =>
      injection hu with h1 h2
      exact ih h.2 t ⟨u', h2⟩


theorem removeScripts_id {s : List Char} (h : scriptFree s = true) :
    removeScripts s = s := by
  refine scanRw_id shrinks_script s.length s (le_refl _) ?_
  intro t ht rep rest hstep
  have := onSuffixes_all h t ht
  unfold tryScriptStep at hstep
  cases hts : tryScript t with
  | none => rw [hts] at hstep; cases hstep
  | some r => rw [hts] at this; simp at this

theorem removeHandlers_id {s : List Char} (h : handlerFree s = true) :
    removeHandlers s = s := by
  refine scanRw_id shrinks_handler s.length s (le_refl _) ?_
  intro t ht rep rest hstep
  have := onSuffixes_all h t ht
  unfold tryHandlerStep at hstep
  cases hts : tryHandler t with
  | none => rw [hts] at hstep; cases hstep
  | some r => rw [hts] at this; simp at this

theorem fixJsHrefs_id {s : List Char} (h : jsFree s = true) :
    fixJsHrefs s = s := by
  refine scanRw_id shrinks_js s.length s (le_refl _) ?_
  intro t ht rep rest hstep
  have := onSuffixes_all h t ht
  unfold tryJsStep at hstep
  cases hts : tryJs t with
  | none => rw [hts] at hstep; cases hstep
  | some r => rw [hts] at this; simp at this

theorem allowTags_id {s : List Char} (h : allowlistOnly s = true) :
    allowTags s = s := by
  refine scanRw_id shrinks_tag s.length s (le_refl _) ?_
  intro t ht rep rest hstep
  have hok := onSuffixes_all h t ht
  unfold tryTagStep at hstep
  cases hts : tryTagCore t with
  | none => rw [hts] at hstep; cases hstep
  | some br =>
    rw [hts] at hstep hok
    simp only [] at hok
    injection hstep with hstep
    have h1 := congrArg Prod.fst hstep
    have h2 := congrArg Prod.snd hstep
    simp at h1 h2
    subst h2
    rw [← h1, hok]
    simpa using listSuf_take_append (tryTagCore_sufLen (b := br.1) (by rw [hts])).1

theorem fix_link_id {tag : List Char} (h1 : infixOf targetEqL tag = true)
    (h2 : infixOf relEqL tag = true) : fix_link tag = tag := by
  simp [fix_link, h1, h2]

theorem fixLinks_id {s : List Char} (h : anchorsComplete s = true) :
    fixLinks s = s := by
  refine scanRw_id shrinks_anchor s.length s (le_refl _) ?_
  intro t ht rep rest hstep
  have hok := onSuffixes_all h t ht
  unfold tryAnchorStep at hstep
  cases hts : tryAnchorCore t with
  | none => rw [hts] at hstep; cases hstep
  | some r =>
    rw [hts] at hstep hok
    simp only [Bool.and_eq_true] at hok
    injection hstep with hstep
    have h1 := congrArg Prod.fst hstep
    have h2 := congrArg Prod.snd hstep
    simp at h1 h2
    subst h2
    rw [← h1, fix_link_id hok.1 hok.2]
    exact listSuf_take_append (tryAnchorCore_sufLen hts).1

/- ----------------------------------------------------------------- -/
/- Inputs without '<' and '=' pass through the sanitizer unchanged.  -/
/- ----------------------------------------------------------------- -/

theorem removeScripts_id_chars {s : List Char} (h : ∀ c ∈ s, c ≠ '<') :
    removeScripts s = s := by
  refine scanRw_id shrinks_script s.length s (le_refl _) ?_
  intro t ht rep rest hstep
  unfold tryScriptStep at hstep
  cases hts : tryScript t with
  | none => rw [hts] at hstep; cases hstep
  | some r =>
    obtain ⟨r0, hr0⟩ := tryScript_head hts
    exact absurd rfl (h '<' (mem_of_listSuf ht (by rw [hr0]; simp)))

theorem removeHandlers_id_chars {s : List Char} (h : ∀ c ∈ s, c ≠ '=') :
    removeHandlers s = s := by
  refine scanRw_id shrinks_handler s.length s (le_refl _) ?_
  intro t ht rep rest hstep
  unfold tryHandlerStep at hstep
  cases hts : tryHandler t with
  | none => rw [hts] at hstep; cases hstep
  | some r =>
    exact absurd rfl (h '=' (mem_of_listSuf ht (tryHandler_mem_eq hts)))

theorem fixJsHrefs_id_chars {s : List Char} (h : ∀ c ∈ s, c ≠ '=') :
    fixJsHrefs s = s := by
  refine scanRw_id shrinks_js s.length s (le_refl _) ?_
  intro t ht rep rest hstep
  unfold tryJsStep at hstep
  cases hts : tryJs t with
  | none => rw [hts] at hstep; cases hstep
  | some r =>
    exact absurd rfl (h '=' (mem_of_listSuf ht (tryJs_mem_eq hts)))

theorem allowTags_id_chars {s : List Char} (h : ∀ c ∈ s, c ≠ '<') :
    allowTags s = s := by
  refine scanRw_id shrinks_tag s.length s (le_refl _) ?_
  intro t ht rep rest hstep
  unfold tryTagStep at hstep
  cases hts : tryTagCore t with
  | none => rw [hts] at hstep; cases hstep
  | some br =>
    obtain ⟨r0, hr0⟩ := tryTagCore_head (b := br.1) (r := br.2) (by rw [hts])
    exact absurd rfl (h '<' (mem_of_listSuf ht (by rw [hr0]; simp)))

theorem fixLinks_id_chars {s : List Char} (h : ∀ c ∈ s, c ≠ '<') :
    fixLinks s = s := by
  refine scanRw_id shrinks_anchor s.length s (le_refl _) ?_
  intro t ht rep rest hstep
  unfold tryAnchorStep at hstep
  cases hts : tryAnchorCore t with
  | none => rw [hts] at hstep; cases hstep
  | some r =>
    obtain ⟨c, r0, hr0⟩ := tryAnchorCore_head hts
    exact absurd rfl (h '<' (mem_of_listSuf ht (by rw [hr0]; simp)))

/-- Master lemma: a nonempty input containing neither `<` nor `=` is a
fixed point of the sanitizer (every pass finds nothing to rewrite). -/
theorem sanitize_id_chars {s : List Char} (hne : s ≠ [])
    (h1 : ∀ c ∈ s, c ≠ '<') (h2 : ∀ c ∈ s, c ≠ '=') :
    basic_sanitize_ul s = s := by
  unfold basic_sanitize_ul
  rw [if_neg (by simpa using hne)]
  rw [removeScripts_id_chars h1, removeHandlers_id_chars h2,
    fixJsHrefs_id_chars h2, allowTags_id_chars h1, fixLinks_id_chars h1]

theorem isPySpace_ne {c : Char} (h : isPySpace c = true) : c ≠ '<' ∧ c ≠ '=' := by
  constructor <;> rintro rfl <;> exact absurd h (by decide)

theorem charOk_ne {c : Char} (h : (c.isAlpha || c.isDigit || c = ' ') = true) :
    c ≠ '<' ∧ c ≠ '=' := by
  constructor <;> rintro rfl <;> exact absurd h (by decide)

/-- C1: the post-sanitization invariant claimed in the specification
(and promised by the function's own docstring) fails: on the input
`<a target=x onclick=boom() href=javascript:alert(1)>hi</a>` the
sanitizer keeps the unquoted inline event handler and the unquoted
`javascript:` href, and the anchor never receives `target="_blank"`
because the substring `target=` is already present. -/
theorem C1_invariant_fails_on_code :
    basic_sanitize_ul
      ("<a target=x onclick=boom() href=javascript:alert(1)>hi</a>".toList) =
      ("<a target=x onclick=boom() href=javascript:alert(1) rel=\"noopener\">hi</a>".toList) ∧
    infixOf ("onclick=".toList)
      (basic_sanitize_ul
        ("<a target=x onclick=boom() href=javascript:alert(1)>hi</a>".toList)) = true ∧
    infixOf ("javascript:".toList)
      (basic_sanitize_ul
        ("<a target=x onclick=boom() href=javascript:alert(1)>hi</a>".toList)) = true ∧
    infixOf ("target=\"_blank\"".toList)
      (basic_sanitize_ul
        ("<a target=x onclick=boom() href=javascript:alert(1)>hi</a>".toList)) = false := by
  decide

/-- C2: counterexample.  A whitespace-only (nonempty) input is *not*
mapped to the canonical empty fragment: the source only tests falsiness
(`if not html_fragment`), so `" "` passes through every pass unchanged. -/
theorem C2_counterexample :
    (∀ c ∈ (" ".toList), isPySpace c = true) ∧
    basic_sanitize_ul (" ".toList) = (" ".toList) ∧
    basic_sanitize_ul (" ".toList) ≠ ("<ul></ul>".toList) := by
  decide

/-- C2 (amended): only the *empty* input is mapped to the canonical
empty fragment `<ul></ul>`; a whitespace-only nonempty input is
returned unchanged. -/
theorem C2_amended :
    basic_sanitize_ul [] = ("<ul></ul>".toList) ∧
    ∀ s : List Char, s ≠ [] → (∀ c ∈ s, isPySpace c = true) →
      basic_sanitize_ul s = s := by
  refine ⟨rfl, ?_⟩
  intro s hne hws
  exact sanitize_id_chars hne
    (fun c hc => (isPySpace_ne (hws c hc)).1)
    (fun c hc => (isPySpace_ne (hws c hc)).2)

theorem C2_amended_witness :
    basic_sanitize_ul ("  ".toList) = ("  ".toList) :=
  C2_amended.2 ("  ".toList) (by decide) (by decide)

/-- C8: counterexample.  The fragment `< script>a< /script >` contains
no tag-regex match at all (so it is allowlist-only and vacuously
attribute-complete), yet sanitize maps it to the empty string and a
second pass maps that to `<ul></ul>`, so sanitize∘sanitize ≠ sanitize
on the claimed class. -/
theorem C8_counterexample :
    allowlistOnly ("< script>a< /script >".toList) = true ∧
    anchorsComplete ("< script>a< /script >".toList) = true ∧
    basic_sanitize_ul (basic_sanitize_ul ("< script>a< /script >".toList)) ≠
      basic_sanitize_ul ("< script>a< /script >".toList) := by
  decide

/-- C8 (amended): sanitize is idempotent on every nonempty fragment
that contains only allowlisted tags, whose anchor tags all carry the
`target=`/`rel=` substrings, and on which the script-, handler- and
javascript:-removal patterns find no match; such fragments are fixed
points of sanitize. -/
theorem C8_amended : ∀ s : List Char, s ≠ [] →
    scriptFree s = true → handlerFree s = true → jsFree s = true →
    allowlistOnly s = true → anchorsComplete s = true →
    basic_sanitize_ul s = s ∧
    basic_sanitize_ul (basic_sanitize_ul s) = basic_sanitize_ul s := by
  intro s hne h1 h2 h3 h4 h5
  have hid : basic_sanitize_ul s = s := by
    unfold basic_sanitize_ul
    rw [if_neg (by simpa using hne)]
    rw [removeScripts_id h1, removeHandlers_id h2, fixJsHrefs_id h3,
      allowTags_id h4, fixLinks_id h5]
  exact ⟨hid, by simp [hid]⟩

theorem C8_amended_witness :
    basic_sanitize_ul ("<ul><li>ok</li></ul>".toList) = ("<ul><li>ok</li></ul>".toList) ∧
    basic_sanitize_ul (basic_sanitize_ul ("<ul><li>ok</li></ul>".toList)) =
      basic_sanitize_ul ("<ul><li>ok</li></ul>".toList) :=
  C8_amended ("<ul><li>ok</li></ul>".toList) (by decide) (by decide) (by decide)
    (by decide) (by decide) (by decide)

/-- C10: the sanitizer performs no escaping or wrapping of plain text:
every nonempty input of ASCII letters, digits and spaces containing at
least one non-space character is returned unchanged. -/
theorem C10_plain_text_unchanged : ∀ s : List Char, s ≠ [] →
    (∀ c ∈ s, (c.isAlpha || c.isDigit || c = ' ') = true) →
    (∃ c ∈ s, c ≠ ' ') →
    basic_sanitize_ul s = s := by
  intro s hne hok _
  exact sanitize_id_chars hne
    (fun c hc => (charOk_ne (hok c hc)).1)
    (fun c hc => (charOk_ne (hok c hc)).2)

theorem C10_witness :
    basic_sanitize_ul ("hello world 123".toList) = ("hello world 123".toList) :=
  C10_plain_text_unchanged ("hello world 123".toList) (by decide) (by decide)
    ⟨'h', by decide, by decide⟩

/- ----------------------------------------------------------------- -/
/- Classifier lemmas: normalization and the counted-pattern matcher. -/
/- ----------------------------------------------------------------- -/

theorem toLower_fix {c : Char} (h : c.toNat < 65 ∨ 90 < c.toNat) : c.toLower = c := by
  unfold Char.toLower
  rw [if_neg]
  push_neg
  intro h1
  omega

theorem toLower_digit {c : Char} (h : c.isDigit = true) : c.toLower = c := by
  simp [Char.isDigit] at h
  have h2 : 48 ≤ c.toNat ∧ c.toNat ≤ 57 := h
  exact toLower_fix (by omega)

theorem digit_not_ws {c : Char} (h : c.isDigit = true) : isPySpace c = false := by
  cases hws : isPySpace c with
  | false => rfl
  | true =>
    exfalso
    unfold isPySpace at hws
    simp only [Bool.or_eq_true, decide_eq_true_eq, or_assoc] at hws
    rcases hws with h1 | h1 | h1 | h1 | h1 | h1 <;> subst h1 <;>
      exact absurd h (by decide)

theorem lowerStr_id_of {s : List Char} (h : ∀ c ∈ s, c.toLower = c) :
    lowerStr s = s := by
  induction s with
  | nil => rfl
  | cons c r ih =>
    unfold lowerStr
    simp only [List.map_cons]
    rw [h c (by simp)]
    have := ih (fun x hx => h x (by simp [hx]))
    unfold lowerStr at this
    rw [this]

theorem pyStrip_id_of {s : List Char}
    (hh : ∀ c r, s = c :: r → isPySpace c = false)
    (hl : ∀ c r, s.reverse = c :: r → isPySpace c = false) :
    pyStrip s = s := by
  unfold pyStrip
  have h1 : s.dropWhile isPySpace = s := by
    cases s with
    | nil => rfl
    | cons c r => simp [List.dropWhile_cons, hh c r rfl]
  rw [h1]
  cases hr : s.reverse with
  | nil =>
    have h2 : s = [] := by simpa using congrArg List.reverse hr
    simp [h2]
  | cons c r =>
    simp only [List.dropWhile_cons, hl c r hr, Bool.false_eq_true, if_false]
    rw [← hr, List.reverse_reverse]

theorem not_infix_of_missing {p s : List Char} {c : Char} (hc : c ∈ p)
    (hs : c ∉ s) : infixOf p s = false := by
  cases hinf : infixOf p s with
  | false => rfl
  | true => exact absurd (mem_of_listInf (infixOf_iff.mp hinf) hc) hs

theorem takeWhile_append_all {p : Char → Bool} {ds : List Char}
    (hds : ∀ c ∈ ds, p c = true) {c : Char} (hc : p c = false) (r : List Char) :
    (ds ++ c :: r).takeWhile p = ds ∧ (ds ++ c :: r).dropWhile p = c :: r := by
  induction ds with
  | nil => simp [List.takeWhile_cons, List.dropWhile_cons, hc]
  | cons d ds' ih =>
    have hd : p d = true := hds d (by simp)
    have ih' := ih (fun x hx => hds x (by simp [hx]))
    constructor
    · simp [List.takeWhile_cons, hd, ih'.1]
    · simp [List.dropWhile_cons, hd, ih'.2]

theorem matchCount_append {us : List (List Char)} {ds : List Char}
    (hne : ds ≠ []) (hds : ∀ c ∈ ds, c.isDigit = true)
    {c : Char} (hc : c.isDigit = false) (r : List Char) :
    matchCount us (ds ++ c :: r) =
      if tailUnits us (c :: r) then some (valDigits ds) else none := by
  obtain ⟨ht, hd⟩ := takeWhile_append_all hds hc r
  unfold matchCount
  simp only [ht, hd]
  rw [if_neg]
  simp [List.isEmpty_iff, hne]

theorem matchCount_cons_nondigit {us : List (List Char)} {c : Char}
    (hc : c.isDigit = false) (r : List Char) :
    matchCount us (c :: r) = none := by
  unfold matchCount
  simp [List.takeWhile_cons, hc]

theorem matchCount_some_head {us : List (List Char)} {s : List Char} {n : Nat}
    (h : matchCount us s = some n) :
    ∃ c r, s = c :: r ∧ c.isDigit = true := by
  cases s with
  | nil => cases h
  | cons c r =>
    cases hc : c.isDigit with
    | true => exact ⟨c, r, rfl, hc⟩
    | false => rw [matchCount_cons_nondigit hc] at h; cases h

theorem isPre_append {p a : List Char} (b : List Char) (h : isPre p a = true) :
    isPre p (a ++ b) = true :=
  isPre_iff.mpr (listPre_trans (isPre_iff.mp h) ⟨b, rfl⟩)

theorem dropWhile_append_ne {p : Char → Bool} {a : List Char} (b : List Char)
    (h : a.dropWhile p ≠ []) :
    (a ++ b).dropWhile p = a.dropWhile p ++ b := by
  induction a with
  | nil => exact absurd rfl h
  | cons c a' ih =>
    cases hc : p c with
    | true =>
      rw [List.dropWhile_cons_of_pos hc] at h
      simp [List.dropWhile_cons, hc, ih h]
    | false => simp [List.dropWhile_cons, hc]

theorem dropWhile_append_stop {p : Char → Bool} (a : List Char) {e : Char}
    (K : List Char) (he : p e = false) :
    (a ++ e :: K).dropWhile p = a.dropWhile p ++ e :: K := by
  induction a with
  | nil => simp [List.dropWhile_cons, he]
  | cons c a' ih =>
    cases hc : p c with
    | true => simp [List.dropWhile_cons, hc, ih]
    | false => simp [List.dropWhile_cons, hc]

theorem stripPre_append {u a b r : List Char} (h : stripPre u a = some r) :
    stripPre u (a ++ b) = some (r ++ b) := by
  obtain ⟨hr, ha⟩ := stripPre_some h
  unfold stripPre
  rw [if_pos]
  · rw [ha, List.append_assoc, dropAppendSelf]
  · rw [ha, List.append_assoc]
    exact isPre_iff.mpr ⟨r ++ b, rfl⟩

/-- A successful counted-unit match is preserved by appending trailing
text (re.match only constrains a prefix). -/
theorem tailUnits_extend {us : List (List Char)} {L : List Char} (trail : List Char)
    (h : tailUnits us L = true) (h2 : L.dropWhile isPySpace ≠ []) :
    tailUnits us (L ++ trail) = true := by
  unfold tailUnits at h ⊢
  rw [dropWhile_append_ne trail h2]
  rcases List.any_eq_true.mp h with ⟨u, hu, hf⟩
  apply List.any_eq_true.mpr
  refine ⟨u, hu, ?_⟩
  cases hsp : stripPre u (L.dropWhile isPySpace) with
  | none => rw [hsp] at hf; cases hf
  | some r3 =>
    rw [hsp] at hf
    rw [stripPre_append hsp]
    simp only [Option.map_some', Option.getD_some] at hf ⊢
    have hne : r3.dropWhile isPySpace ≠ [] := by
      intro hz
      rw [hz] at hf
      exact absurd hf (by decide)
    rw [dropWhile_append_ne trail hne]
    exact isPre_append trail hf

/-- If every unit starts with a letter different from the first
non-space character, the counted matcher cannot fire. -/
theorem tailUnits_false_head {us : List (List Char)} {L : List Char}
    {c : Char} {rr : List Char} (hd : L.dropWhile isPySpace = c :: rr)
    (h : ∀ u ∈ us, u ≠ [] ∧ u.head? ≠ some c) :
    tailUnits us L = false := by
  unfold tailUnits
  apply List.any_eq_false.mpr
  intro u hu
  obtain ⟨hne, hh⟩ := h u hu
  cases u with
  | nil => exact absurd rfl hne
  | cons cu pu =>
    simp only [hd]
    cases hsp : stripPre (cu :: pu) (c :: rr) with
    | none => simp [hsp]
    | some r3 =>
      obtain ⟨_, ha⟩ := stripPre_some hsp
      injection ha with h1 _
      exact absurd (congrArg some h1).symm hh

theorem within_eval (ref : Int) {s n : List Char} (hne : s.isEmpty = false)
    (hn : lowerStr (pyStrip s) = n) :
    within_past_week ref s =
      (if infixOf yesterdayL n then true
       else if (matchCount minUnits n).isSome then true
       else if (matchCount hourUnits n).isSome then true
       else
         match matchCount dayUnits n with
         | some k => decide (k ≤ 7)
         | none =>
           match matchCount weekUnits n with
           | some k => decide (k ≤ 1)
           | none =>
             match parseAbsDate (pyStrip s) with
             | some o => decide (ref - (o : Int) ≤ 7)
             | none => false) := by
  unfold within_past_week
  simp only [hne, Bool.false_eq_true, if_false, hn]

/-- Evaluation of the classifier on `digits ++ L` for a fixed unit
tail `L` that is already normalized and cannot contain "yesterday". -/
theorem within_relative_L (ref : Int) (ds : List Char) {L : List Char} {c0 : Char}
    {Lr : List Char}
    (hdsne : ds ≠ []) (hds : ∀ c ∈ ds, c.isDigit = true)
    (hL : L = c0 :: Lr) (hc0 : c0.isDigit = false)
    (hLlow : ∀ c ∈ L, c.toLower = c)
    (hLrev : ∀ c r, L.reverse = c :: r → isPySpace c = false)
    (hdisc : ∃ c, c ∈ yesterdayL ∧ c.isDigit = false ∧ c ∉ L) :
    within_past_week ref (ds ++ L) =
      (if tailUnits minUnits L then true
       else if tailUnits hourUnits L then true
       else if tailUnits dayUnits L then decide (valDigits ds ≤ 7)
       else if tailUnits weekUnits L then decide (valDigits ds ≤ 1)
       else
         match parseAbsDate (ds ++ L) with
         | some o => decide (ref - (o : Int) ≤ 7)
         | none => false) := by
  obtain ⟨d, ds', rfl⟩ : ∃ d ds', ds = d :: ds' := by
    cases ds with
    | nil => exact absurd rfl hdsne
    | cons d ds' => exact ⟨d, ds', rfl⟩
  have hemp : ((d :: ds') ++ L).isEmpty = false := rfl
  have hstrip : pyStrip ((d :: ds') ++ L) = (d :: ds') ++ L := by
    apply pyStrip_id_of
    · intro c r h
      have h1 : c = d := by
        have := congrArg List.head? h
        simpa using this.symm
      rw [h1]
      exact digit_not_ws (hds d (by simp))
    · intro c r h
      rw [List.reverse_append] at h
      cases hLr : L.reverse with
      | nil =>
        rw [hL] at hLr
        simp at hLr
      | cons e K =>
        rw [hLr] at h
        have h1 : c = e := by
          have := congrArg List.head? h
          simpa using this.symm
        rw [h1]
        exact hLrev e K hLr
  have hlower : lowerStr ((d :: ds') ++ L) = (d :: ds') ++ L := by
    apply lowerStr_id_of
    intro c hc
    rcases List.mem_append.mp hc with h | h
    · exact toLower_digit (hds c h)
    · exact hLlow c h
  have hyes : infixOf yesterdayL ((d :: ds') ++ L) = false := by
    obtain ⟨c, hcy, hcd, hcL⟩ := hdisc
    apply not_infix_of_missing hcy
    intro hmem
    rcases List.mem_append.mp hmem with h | h
    · exact absurd (hds _ h) (by rw [hcd]; exact Bool.false_ne_true)
    · exact absurd h hcL
  have key : ∀ us : List (List Char),
      matchCount us ((d :: ds') ++ L) =
        if tailUnits us L then some (valDigits (d :: ds')) else none := by
    intro us
    rw [hL, matchCount_append (by simp) hds hc0 Lr, ← hL]
  rw [within_eval ref hemp (by rw [hstrip, hlower])]
  rw [hyes, key minUnits, key hourUnits, key dayUnits, key weekUnits, hstrip]
  by_cases t1 : tailUnits minUnits L = true
  · simp [t1]
  · simp only [eq_false_of_ne_true t1, Bool.false_eq_true, if_false,
      Option.isSome_none, Bool.false_eq_true]
    by_cases t2 : tailUnits hourUnits L = true
    · simp [t2]
    · simp only [eq_false_of_ne_true t2, Bool.false_eq_true, if_false,
        Option.isSome_none]
      by_cases t3 : tailUnits dayUnits L = true
      · simp [t3]
      · simp only [eq_false_of_ne_true t3, Bool.false_eq_true, if_false]
        by_cases t4 : tailUnits weekUnits L = true
        · simp [t4]
        · simp only [eq_false_of_ne_true t4, Bool.false_eq_true, if_false]

/-- Specialization of `within_relative_L` to inputs
`digits ++ " " ++ unit ++ " ago"` for a lowercase unit word without 'y'. -/
theorem within_unit (ref : Int) (ds u : List Char)
    (hdsne : ds ≠ []) (hds : ∀ c ∈ ds, c.isDigit = true)
    (hulow : ∀ c ∈ u, c.toLower = c)
    (hdisc : ∃ c, c ∈ yesterdayL ∧ c.isDigit = false ∧
      c ∉ (' ' :: (u ++ (' ' :: agoL)))) :
    within_past_week ref (ds ++ (' ' :: (u ++ (' ' :: agoL)))) =
      (if tailUnits minUnits (' ' :: (u ++ (' ' :: agoL))) then true
       else if tailUnits hourUnits (' ' :: (u ++ (' ' :: agoL))) then true
       else if tailUnits dayUnits (' ' :: (u ++ (' ' :: agoL))) then
         decide (valDigits ds ≤ 7)
       else if tailUnits weekUnits (' ' :: (u ++ (' ' :: agoL))) then
         decide (valDigits ds ≤ 1)
       else
         match parseAbsDate (ds ++ (' ' :: (u ++ (' ' :: agoL)))) with
         | some o => decide (ref - (o : Int) ≤ 7)
         | none => false) := by
  apply within_relative_L ref ds hdsne hds rfl (by decide)
  · intro c hc
    rcases List.mem_cons.mp hc with rfl | hc2
    · decide
    rcases List.mem_append.mp hc2 with h | h
    · exact hulow c h
    · exact (by decide : ∀ x ∈ (' ' :: agoL), Char.toLower x = x) c h
  · intro c r h
    rw [List.reverse_cons, List.reverse_append, List.reverse_cons,
      (by decide : agoL.reverse = 'o' :: ['g', 'a'])] at h
    simp only [List.cons_append, List.append_assoc] at h
    injection h with h1 _
    rw [← h1]
    decide
  · exact hdisc

/-- C3: on a normalized input "N days ago" (N a nonempty digit string)
the classifier returns true exactly when N ≤ 7. -/
theorem C3_days_within_seven : ∀ (ref : Int) (ds : List Char), ds ≠ [] →
    (∀ c ∈ ds, c.isDigit = true) →
    within_past_week ref (ds ++ " days ago".toList) = decide (valDigits ds ≤ 7) := by
  intro ref ds hne hds
  rw [(by decide : (" days ago".toList : List Char) =
        ' ' :: ("days".toList ++ (' ' :: agoL)))]
  rw [within_unit ref ds ("days".toList) hne hds (by decide)
    ⟨'e', by decide, by decide, by decide⟩]
  rw [if_neg (by decide), if_neg (by decide), if_pos (by decide)]

theorem C3_witness :
    within_past_week 0 ("3 days ago".toList) = true ∧
    within_past_week 0 ("9 days ago".toList) = false := by
  constructor
  · have h := C3_days_within_seven 0 ("3".toList) (by decide) (by decide)
    rw [(by decide : ("3 days ago".toList : List Char) =
          "3".toList ++ " days ago".toList), h]
    decide
  · have h := C3_days_within_seven 0 ("9".toList) (by decide) (by decide)
    rw [(by decide : ("9 days ago".toList : List Char) =
          "9".toList ++ " days ago".toList), h]
    decide

/-- C4: minutes/hours (with all source abbreviations) are classified
recent for every count; weeks are recent exactly when the count ≤ 1,
independently of the 7-day window. -/
theorem C4_asymmetric_thresholds :
    (∀ (ref : Int) (ds u : List Char), ds ≠ [] →
       (∀ c ∈ ds, c.isDigit = true) → u ∈ minUnits ++ hourUnits →
       within_past_week ref (ds ++ (' ' :: (u ++ (' ' :: agoL)))) = true) ∧
    (∀ (ref : Int) (ds u : List Char), ds ≠ [] →
       (∀ c ∈ ds, c.isDigit = true) → u ∈ weekUnits →
       within_past_week ref (ds ++ (' ' :: (u ++ (' ' :: agoL)))) =
         decide (valDigits ds ≤ 1)) := by
  constructor
  · intro ref ds u hne hds hu
    simp only [minUnits, hourUnits, List.cons_append, List.nil_append,
      List.mem_cons, List.not_mem_nil, or_false] at hu
    rcases hu with rfl | rfl | rfl | rfl | rfl | rfl | rfl | rfl
    · rw [within_unit ref ds _ hne hds (by decide) ⟨'y', by decide, by decide, by decide⟩,
        if_pos (by decide)]
    · rw [within_unit ref ds _ hne hds (by decide) ⟨'y', by decide, by decide, by decide⟩,
        if_pos (by decide)]
    · rw [within_unit ref ds _ hne hds (by decide) ⟨'y', by decide, by decide, by decide⟩,
        if_pos (by decide)]
    · rw [within_unit ref ds _ hne hds (by decide) ⟨'y', by decide, by decide, by decide⟩,
        if_pos (by decide)]
    · rw [within_unit ref ds _ hne hds (by decide) ⟨'y', by decide, by decide, by decide⟩,
        if_neg (by decide), if_pos (by decide)]
    · rw [within_unit ref ds _ hne hds (by decide) ⟨'y', by decide, by decide, by decide⟩,
        if_neg (by decide), if_pos (by decide)]
    · rw [within_unit ref ds _ hne hds (by decide) ⟨'y', by decide, by decide, by decide⟩,
        if_neg (by decide), if_pos (by decide)]
    · rw [within_unit ref ds _ hne hds (by decide) ⟨'y', by decide, by decide, by decide⟩,
        if_neg (by decide), if_pos (by decide)]
  · intro ref ds u hne hds hu
    simp only [weekUnits, List.mem_cons, List.not_mem_nil, or_false] at hu
    rcases hu with rfl | rfl
    · rw [within_unit ref ds _ hne hds (by decide) ⟨'y', by decide, by decide, by decide⟩,
        if_neg (by decide), if_neg (by decide), if_neg (by decide),
        if_pos (by decide)]
    · rw [within_unit ref ds _ hne hds (by decide) ⟨'y', by decide, by decide, by decide⟩,
        if_neg (by decide), if_neg (by decide), if_neg (by decide),
        if_pos (by decide)]

theorem C4_witness :
    within_past_week 0 ("5 minutes ago".toList) = true ∧
    within_past_week 0 ("3 hours ago".toList) = true ∧
    within_past_week 0 ("2 weeks ago".toList) = false ∧
    within_past_week 0 ("1 week ago".toList) = true := by
  refine ⟨?_, ?_, ?_, ?_⟩
  · have h := C4_asymmetric_thresholds.1 0 ("5".toList) ("minutes".toList)
      (by decide) (by decide) (by decide)
    rw [(by decide : ("5 minutes ago".toList : List Char) =
          "5".toList ++ (' ' :: ("minutes".toList ++ (' ' :: agoL)))), h]
  · have h := C4_asymmetric_thresholds.1 0 ("3".toList) ("hours".toList)
      (by decide) (by decide) (by decide)
    rw [(by decide : ("3 hours ago".toList : List Char) =
          "3".toList ++ (' ' :: ("hours".toList ++ (' ' :: agoL)))), h]
  · have h := C4_asymmetric_thresholds.2 0 ("2".toList) ("weeks".toList)
      (by decide) (by decide) (by decide)
    rw [(by decide : ("2 weeks ago".toList : List Char) =
          "2".toList ++ (' ' :: ("weeks".toList ++ (' ' :: agoL)))), h]
    decide
  · have h := C4_asymmetric_thresholds.2 0 ("1".toList) ("week".toList)
      (by decide) (by decide) (by decide)
    rw [(by decide : ("1 week ago".toList : List Char) =
          "1".toList ++ (' ' :: ("week".toList ++ (' ' :: agoL)))), h]
    decide

/- ----------------------------------------------------------------- -/
/- Infix preservation under strip/lower (for the "yesterday" clause). -/
/- ----------------------------------------------------------------- -/

theorem listInf_dropWhile {t s : List Char} {c : Char} {tr : List Char}
    (ht : t = c :: tr) (hc : isPySpace c = false) (h : listInf t s) :
    listInf t (s.dropWhile isPySpace) := by
  rcases h with ⟨u, v, rfl⟩
  induction u with
  | nil =>
    rw [List.nil_append, ht, List.cons_append, List.dropWhile_cons_of_neg (by simp [hc]),
      ← List.cons_append, ← ht]
    exact ⟨[], v, rfl⟩
  | cons d u' ih =>
    simp only [List.cons_append]
    rw [List.dropWhile_cons]
    cases hd : isPySpace d with
    | true =>
      simp only [if_true]
      exact ih
    | false =>
      simp only [Bool.false_eq_true, if_false]
      exact ⟨d :: u', v, rfl⟩

theorem listInf_reverse {t s : List Char} (h : listInf t s) :
    listInf t.reverse s.reverse := by
  rcases h with ⟨u, v, rfl⟩
  exact ⟨v.reverse, u.reverse, by simp⟩

theorem listInf_map {t s : List Char} (f : Char → Char) (h : listInf t s) :
    listInf (t.map f) (s.map f) := by
  rcases h with ⟨u, v, rfl⟩
  exact ⟨u.map f, v.map f, by simp⟩

/-- "yesterday" occurring anywhere in the raw string still occurs in
the stripped, lowercased string. -/
theorem yesterday_in_norm {s : List Char} (h : listInf yesterdayL s) :
    infixOf yesterdayL (lowerStr (pyStrip s)) = true := by
  have h1 : listInf yesterdayL (s.dropWhile isPySpace) :=
    listInf_dropWhile (by decide : yesterdayL = 'y' :: "esterday".toList)
      (by decide) h
  have h2 : listInf yesterdayL.reverse (s.dropWhile isPySpace).reverse :=
    listInf_reverse h1
  have h3 : listInf yesterdayL.reverse
      (((s.dropWhile isPySpace).reverse).dropWhile isPySpace) :=
    listInf_dropWhile (by decide : yesterdayL.reverse = 'y' :: "adretse".toList ++ ['y'])
      (by decide) h2
  have h4 : listInf yesterdayL (pyStrip s) := by
    have h5 := listInf_reverse h3
    rw [List.reverse_reverse] at h5
    exact h5
  have h6 : listInf (lowerStr yesterdayL) (lowerStr (pyStrip s)) :=
    listInf_map Char.toLower h4
  rw [(by decide : lowerStr yesterdayL = yesterdayL)] at h6
  exact infixOf_iff.mpr h6

/-- Trailing text after "3 days ago" never changes the classification:
the day pattern still fires (re.match constrains only a prefix), and
the overall answer stays `true` whatever the trail contains. -/
theorem day3_trailing (ref : Int) (trail : List Char) :
    within_past_week ref ("3 days ago".toList ++ trail) = true := by
  have hemp : ("3 days ago".toList ++ trail).isEmpty = false := by
    rw [(by decide : ("3 days ago".toList : List Char) = '3' :: " days ago".toList)]
    rfl
  obtain ⟨t2, ht2⟩ : ∃ t2, pyStrip ("3 days ago".toList ++ trail) =
      "3 days ago".toList ++ t2 := by
    unfold pyStrip
    have hdw : ("3 days ago".toList ++ trail).dropWhile isPySpace =
        "3 days ago".toList ++ trail := by
      rw [(by decide : ("3 days ago".toList : List Char) = '3' :: " days ago".toList)]
      simp only [List.cons_append]
      rw [List.dropWhile_cons_of_neg (by decide)]
    rw [hdw, List.reverse_append,
      (by decide : ("3 days ago".toList : List Char).reverse =
        'o' :: "ga syad 3".toList),
      dropWhile_append_stop _ _ (by decide)]
    refine ⟨(trail.reverse.dropWhile isPySpace).reverse, ?_⟩
    rw [List.reverse_append,
      (by decide : ('o' :: "ga syad 3".toList : List Char).reverse =
        "3 days ago".toList)]
  have hlow : lowerStr ("3 days ago".toList ++ t2) =
      "3 days ago".toList ++ lowerStr t2 := by
    unfold lowerStr
    rw [List.map_append]
    congr 1
  rw [within_eval ref hemp (by rw [ht2, hlow])]
  by_cases hy : infixOf yesterdayL ("3 days ago".toList ++ lowerStr t2) = true
  · rw [if_pos hy]
  · rw [if_neg hy]
    have hform : ("3 days ago".toList ++ lowerStr t2 : List Char) =
        ['3'] ++ (' ' :: ("days ago".toList ++ lowerStr t2)) := by
      rw [(by decide : ("3 days ago".toList : List Char) =
        ['3'] ++ (' ' :: "days ago".toList))]
      simp
    have hdw2 : (' ' :: ("days ago".toList ++ lowerStr t2)).dropWhile isPySpace =
        'd' :: ("ays ago".toList ++ lowerStr t2) := by
      rw [List.dropWhile_cons_of_pos (by decide),
        (by decide : ("days ago".toList : List Char) = 'd' :: "ays ago".toList)]
      simp only [List.cons_append]
      rw [List.dropWhile_cons_of_neg (by decide)]
    have hmin : matchCount minUnits ("3 days ago".toList ++ lowerStr t2) = none := by
      rw [hform, matchCount_append (by decide) (by decide) (by decide) _,
        tailUnits_false_head hdw2 (by decide)]
      rfl
    have hhour : matchCount hourUnits ("3 days ago".toList ++ lowerStr t2) = none := by
      rw [hform, matchCount_append (by decide) (by decide) (by decide) _,
        tailUnits_false_head hdw2 (by decide)]
      rfl
    have hday : matchCount dayUnits ("3 days ago".toList ++ lowerStr t2) = some 3 := by
      rw [hform, matchCount_append (by decide) (by decide) (by decide) _]
      have hx : (' ' :: ("days ago".toList ++ lowerStr t2)) =
          " days ago".toList ++ lowerStr t2 := by
        rw [(by decide : (" days ago".toList : List Char) = ' ' :: "days ago".toList)]
        simp
      rw [hx, tailUnits_extend (lowerStr t2) (by decide) (by decide)]
      decide
    rw [hmin, hhour, hday]
    simp

/-- The day matcher fires with the same captured count whatever text
follows "ago". -/
theorem day3_matcher_trailing (trail : List Char) :
    matchCount dayUnits ("3 days ago".toList ++ trail) = some 3 := by
  have hform : ("3 days ago".toList ++ trail : List Char) =
      ['3'] ++ (' ' :: ("days ago".toList ++ trail)) := by
    rw [(by decide : ("3 days ago".toList : List Char) =
      ['3'] ++ (' ' :: "days ago".toList))]
    simp
  rw [hform, matchCount_append (by decide) (by decide) (by decide) _]
  have hx : (' ' :: ("days ago".toList ++ trail)) = " days ago".toList ++ trail := by
    rw [(by decide : (" days ago".toList : List Char) = ' ' :: "days ago".toList)]
    simp
  rw [hx, tailUnits_extend trail (by decide) (by decide)]
  decide


theorem eq_none_of_isSome_false {α : Type} {x : Option α}
    (h : x.isSome = false) : x = none := by
  cases x with
  | none => rfl
  | some a => exact Bool.noConfusion h

/-- When no relative pattern hits and no absolute format parses, the
classifier returns false (never an error). -/
theorem within_false_of (ref : Int) (s : List Char)
    (h1 : relativeHit (lowerStr (pyStrip s)) = false)
    (h2 : parseAbsDate (pyStrip s) = none) :
    within_past_week ref s = false := by
  cases s with
  | nil => rfl
  | cons c r =>
    rw [@within_eval ref (c :: r) (lowerStr (pyStrip (c :: r))) rfl rfl]
    unfold relativeHit at h1
    simp only [Bool.or_eq_false_iff] at h1
    obtain ⟨⟨⟨⟨hy, hm⟩, hh⟩, hd⟩, hw⟩ := h1
    rw [if_neg (by rw [hy]; exact Bool.false_ne_true),
      if_neg (by rw [hm]; exact Bool.false_ne_true),
      if_neg (by rw [hh]; exact Bool.false_ne_true),
      eq_none_of_isSome_false hd, eq_none_of_isSome_false hw, h2]

/-- C6: totality / fail-safe behaviour.  The classifier returns false
(not an error) on the empty string, on any string hitting no pattern at
all, and on a malformed calendar date whose `datetime` construction
raises (and is caught) inside strptime; the sanitizer passes malformed
markup through rather than failing. -/
theorem C6_totality :
    (∀ ref : Int, within_past_week ref [] = false) ∧
    (∀ (ref : Int) (s : List Char),
       relativeHit (lowerStr (pyStrip s)) = false →
       parseAbsDate (pyStrip s) = none →
       within_past_week ref s = false) ∧
    (∀ ref : Int, within_past_week ref ("Feb 30, 2025".toList) = false) ∧
    basic_sanitize_ul ("<a <b<script x".toList) = ("<a <b<script x".toList) := by
  refine ⟨fun ref => rfl, within_false_of, ?_, by decide⟩
  intro ref
  exact within_false_of ref _ (by decide) (by decide)

theorem C6_witness :
    within_past_week 0 ("complete gibberish!".toList) = false :=
  C6_totality.2.1 0 ("complete gibberish!".toList) (by decide) (by decide)

/-- C9: the counted relative patterns are anchored at the start of the
normalized input (a successful match forces a leading digit; a prefix
such as "about " makes the classifier return false), trailing text
after "ago" is permitted (matcher and classifier), and the literal
"yesterday" check matches anywhere in the string. -/
theorem C9_anchoring :
    (∀ (us : List (List Char)) (s : List Char) (n : Nat),
       matchCount us s = some n → ∃ c r, s = c :: r ∧ c.isDigit = true) ∧
    (∀ ref : Int, within_past_week ref ("about 3 days ago".toList) = false) ∧
    (∀ (ref : Int) (trail : List Char),
       matchCount dayUnits ("3 days ago".toList ++ trail) = some 3 ∧
       within_past_week ref ("3 days ago".toList ++ trail) = true) ∧
    (∀ (ref : Int) (pre post : List Char),
       within_past_week ref (pre ++ yesterdayL ++ post) = true) := by
  refine ⟨fun us s n h => matchCount_some_head h, ?_, ?_, ?_⟩
  · intro ref
    exact within_false_of ref _ (by decide) (by decide)
  · intro ref trail
    exact ⟨day3_matcher_trailing trail, day3_trailing ref trail⟩
  · intro ref pre post
    have hinf : listInf yesterdayL (pre ++ yesterdayL ++ post) :=
      ⟨pre, post, rfl⟩
    have hemp : (pre ++ yesterdayL ++ post).isEmpty = false := by
      rcases hq : pre ++ yesterdayL ++ post with _ | ⟨c, r⟩
      · exfalso
        rcases List.append_eq_nil.mp hq with ⟨h1, h2⟩
        rcases List.append_eq_nil.mp h1 with ⟨h3, h4⟩
        exact absurd h4 (by decide)
      · rfl
    rw [@within_eval ref (pre ++ yesterdayL ++ post)
      (lowerStr (pyStrip (pre ++ yesterdayL ++ post))) hemp rfl,
      if_pos (yesterday_in_norm hinf)]

theorem C9_witness :
    (∃ c r, ("3 days ago".toList : List Char) = c :: r ∧ c.isDigit = true) ∧
    matchCount dayUnits ("3 days ago".toList ++ " or so".toList) = some 3 ∧
    within_past_week 0 ("note: ".toList ++ yesterdayL ++ ", I think".toList) = true := by
  refine ⟨C9_anchoring.1 dayUnits ("3 days ago".toList) 3 (by decide),
    (C9_anchoring.2.2.1 0 (" or so".toList)).1,
    C9_anchoring.2.2.2 0 ("note: ".toList) (", I think".toList)⟩

/- ----------------------------------------------------------------- -/
/- C7: exact behaviour of fix_link on anchor tags.                   -/
/- ----------------------------------------------------------------- -/


theorem dropLast_append_single (l : List Char) (a : Char) :
    (l ++ [a]).dropLast = l := by simp

theorem listInf_length {p s : List Char} (h : listInf p s) : p.length ≤ s.length := by
  rcases h with ⟨u, v, rfl⟩
  simp
  omega

theorem listInf_append_right {p a : List Char} (b : List Char) (h : listInf p a) :
    listInf p (a ++ b) := by
  rcases h with ⟨u, v, rfl⟩
  exact ⟨u, v ++ b, by simp⟩

theorem countPre_append_zero {p : List Char} :
    ∀ (x y : List Char), (∀ k, k < x.length → isPre p (x.drop k ++ y) = false) →
      countPre p (x ++ y) = countPre p y := by
  intro x
  induction x with
  | nil => intro y _; rfl
  | cons c x' ih =>
    intro y h
    have h0 : isPre p (c :: (x' ++ y)) = false := h 0 (by simp)
    show (if isPre p (c :: (x' ++ y)) then 1 else 0) + countPre p (x' ++ y) =
      countPre p y
    rw [h0]
    simp only [Bool.false_eq_true, if_false, Nat.zero_add]
    exact ih y (fun k hk => h (k + 1) (by simp; omega))

/-- No occurrence of `pat` can start inside `c` in `c ++ q` when a
short prefix `sub` of `pat` does not occur in the original tag `t`
(of which `c` is a prefix) and `pat` cannot restart inside `q`. -/
theorem kill_left_occurrences {pat sub c t q : List Char}
    (hsub : listPre sub pat)
    (hni : infixOf sub t = false)
    (hct : listPre c t)
    (hq : ∀ j, j < sub.length → isPre (pat.drop j) q = false) :
    ∀ k, k < c.length → isPre pat (c.drop k ++ q) = false := by
  intro k hk
  cases hcon : isPre pat (c.drop k ++ q) with
  | false => rfl
  | true =>
    exfalso
    have hpre : listPre pat (c.drop k ++ q) := isPre_iff.mp hcon
    have hsubc : listInf sub t → False := by
      intro hi
      rw [infixOf_iff.mpr hi] at hni
      cases hni
    rcases preAppendSplit hpre with hA | ⟨hB1, hB2⟩
    · have h1 : listPre sub (c.drop k) := listPre_trans hsub hA
      exact hsubc (listInf_of_inf_pre
        (listInf_of_pre_suf h1 (listSuf_drop k c)) hct)
    · by_cases hj : sub.length ≤ (c.drop k).length
      · have h1 : listPre sub (c.drop k) :=
          preOfPreLe hsub hB1 hj
        exact hsubc (listInf_of_inf_pre
          (listInf_of_pre_suf h1 (listSuf_drop k c)) hct)
      · have h2 := hq (c.drop k).length (by omega)
        rw [isPre_iff.mpr hB2] at h2
        cases h2

/-- `pat` does not occur in `c ++ b` when it occurs neither in the tag
`t` extending `c` nor in the concrete appendix `b`, and cannot straddle
the border. -/
theorem not_infix_append_concrete {pat c t b : List Char}
    (hct : listPre c t) (hni : infixOf pat t = false)
    (hb : infixOf pat b = false)
    (hspan : ∀ j, 1 ≤ j → j < pat.length → isPre (pat.drop j) b = false) :
    infixOf pat (c ++ b) = false := by
  cases hcon : infixOf pat (c ++ b) with
  | false => rfl
  | true =>
    exfalso
    rcases infAppendSplit (infixOf_iff.mp hcon) with hA | hB | ⟨p1, p2, hp, hp1, hp2, hsuf, hpre⟩
    · rw [infixOf_iff.mpr (listInf_of_inf_pre hA hct)] at hni
      cases hni
    · rw [infixOf_iff.mpr hB] at hb
      cases hb
    · have hlen : p1.length + p2.length = pat.length := by
        rw [← hp]; simp
      have hj1 : 1 ≤ p1.length := by
        cases p1 with
        | nil => exact absurd rfl hp1
        | cons a b2 => simp
      have hj2 : 1 ≤ p2.length := by
        cases p2 with
        | nil => exact absurd rfl hp2
        | cons a b2 => simp
      have hdrop : p2 = pat.drop p1.length := by
        rw [← hp, dropAppendSelf]
      have h2 := hspan p1.length hj1 (by omega)
      rw [← hdrop, isPre_iff.mpr hpre] at h2
      cases h2

/-- An infix of `pre0 ++ ['>']` that has ≥ 2 characters and no '>'
lies inside `pre0`. -/
theorem inf_into_prefix {pat pre0 : List Char}
    (hlen : 2 ≤ pat.length) (hgt : '>' ∉ pat)
    (h : infixOf pat (pre0 ++ ['>']) = true) : listInf pat pre0 := by
  rcases infAppendSplit (infixOf_iff.mp h) with hA | hB | ⟨p1, p2, hp, hp1, hp2, _, hpre⟩
  · exact hA
  · exfalso
    have := listInf_length hB
    simp at this
    omega
  · exfalso
    cases p2 with
    | nil => exact absurd rfl hp2
    | cons d p2' =>
      rcases hpre with ⟨w, hw⟩
      have hd : d = '>' := by
        have := congrArg List.head? hw
        simpa using this
      apply hgt
      rw [← hp, hd]
      simp

theorem bool_not_true {b : Bool} (h : b = false) : ¬ b = true := by
  rw [h]
  exact Bool.false_ne_true

theorem fix_link_append_both {tag : List Char}
    (ht : infixOf targetEqL tag = false)
    (hr : infixOf relEqL (tag.dropLast ++ targetApp ++ ['>']) = false) :
    fix_link tag = (tag.dropLast ++ targetApp) ++ relApp ++ ['>'] := by
  simp only [fix_link]
  rw [if_neg (bool_not_true ht), if_neg (bool_not_true hr), dropLast_append_single]

theorem fix_link_append_rel {tag : List Char}
    (ht : infixOf targetEqL tag = true)
    (hr : infixOf relEqL tag = false) :
    fix_link tag = tag.dropLast ++ relApp ++ ['>'] := by
  simp only [fix_link]
  rw [if_pos ht, if_neg (bool_not_true hr)]

theorem fix_link_append_target {tag : List Char}
    (ht : infixOf targetEqL tag = false)
    (hr : infixOf relEqL (tag.dropLast ++ targetApp ++ ['>']) = true) :
    fix_link tag = tag.dropLast ++ targetApp ++ ['>'] := by
  simp only [fix_link]
  rw [if_neg (bool_not_true ht), if_pos hr]

/-- C7: on every anchor-tag match `<a...>` the link fixer appends
`target="_blank"` exactly when the substring `target=` is absent and
`rel="noopener"` exactly when `rel=` is absent (pure substring checks);
an anchor lacking both receives each attribute exactly once, and an
anchor already carrying both is returned unaltered. -/
theorem C7_fix_link_behaviour (inner : List Char) (hgt : '>' ∉ inner)
    (hb : ∀ d r, inner = d :: r → isWordC d = false) :
    (infixOf targetEqL (('<' :: 'a' :: inner) ++ ['>']) = true →
       infixOf relEqL (('<' :: 'a' :: inner) ++ ['>']) = true →
       fix_link (('<' :: 'a' :: inner) ++ ['>']) = ('<' :: 'a' :: inner) ++ ['>']) ∧
    (infixOf targetEqL (('<' :: 'a' :: inner) ++ ['>']) = false →
       infixOf relEqL (('<' :: 'a' :: inner) ++ ['>']) = false →
       fix_link (('<' :: 'a' :: inner) ++ ['>']) = ('<' :: 'a' :: inner) ++ bothApp ∧
       countPre tbL (fix_link (('<' :: 'a' :: inner) ++ ['>'])) = 1 ∧
       countPre rnL (fix_link (('<' :: 'a' :: inner) ++ ['>'])) = 1) ∧
    (infixOf targetEqL (('<' :: 'a' :: inner) ++ ['>']) = true →
       infixOf relEqL (('<' :: 'a' :: inner) ++ ['>']) = false →
       fix_link (('<' :: 'a' :: inner) ++ ['>']) =
         ('<' :: 'a' :: inner) ++ relCloseApp) ∧
    (infixOf targetEqL (('<' :: 'a' :: inner) ++ ['>']) = false →
       infixOf relEqL (('<' :: 'a' :: inner) ++ ['>']) = true →
       fix_link (('<' :: 'a' :: inner) ++ ['>']) =
         ('<' :: 'a' :: inner) ++ tgtCloseApp) := by
  constructor
  · intro ht hr
    exact fix_link_id ht hr
  constructor
  · intro ht hr
    have hrel1 : infixOf relEqL
        ((('<' :: 'a' :: inner) ++ ['>']).dropLast ++ targetApp ++ ['>']) = false := by
      rw [dropLast_append_single]
      have hform : (('<' :: 'a' :: inner) ++ targetApp) ++ ['>'] =
          ('<' :: 'a' :: inner) ++ tgtCloseApp := by
        rw [List.append_assoc]
        congr 1
      rw [hform]
      exact not_infix_append_concrete ⟨['>'], rfl⟩ hr (by decide) (by decide)
    have he := fix_link_append_both ht hrel1
    rw [dropLast_append_single] at he
    have hres : (('<' :: 'a' :: inner) ++ targetApp) ++ relApp ++ ['>'] =
        ('<' :: 'a' :: inner) ++ bothApp := by
      simp only [List.append_assoc]
      congr 1
    refine ⟨by rw [he, hres], ?_, ?_⟩
    · rw [he, hres,
        countPre_append_zero _ _ (kill_left_occurrences
          (isPre_iff.mp (by decide : isPre targetEqL tbL = true)) ht
          ⟨['>'], rfl⟩ (by decide))]
      decide
    · rw [he, hres,
        countPre_append_zero _ _ (kill_left_occurrences
          (isPre_iff.mp (by decide : isPre relEqL rnL = true)) hr
          ⟨['>'], rfl⟩ (by decide))]
      decide
  constructor
  · intro ht hr
    have he := fix_link_append_rel ht hr
    rw [dropLast_append_single] at he
    rw [he]
    simp only [List.append_assoc]
    congr 1
  · intro ht hr
    have hrp : listInf relEqL ('<' :: 'a' :: inner) :=
      inf_into_prefix (by decide) (by decide) hr
    have hrel1 : infixOf relEqL
        ((('<' :: 'a' :: inner) ++ ['>']).dropLast ++ targetApp ++ ['>']) = true := by
      rw [dropLast_append_single]
      exact infixOf_iff.mpr (listInf_append_right _ (listInf_append_right _ hrp))
    have he := fix_link_append_target ht hrel1
    rw [dropLast_append_single] at he
    rw [he]
    simp only [List.append_assoc]
    congr 1

theorem C7_witness :
    countPre tbL (fix_link ("<a href=\"http://e.com\">".toList)) = 1 ∧
    countPre rnL (fix_link ("<a href=\"http://e.com\">".toList)) = 1 := by
  have h := (C7_fix_link_behaviour (" href=\"http://e.com\"".toList) (by decide)
    (by intro d r hdr
        have hd : d = ' ' := by
          have h2 := congrArg List.head? hdr
          simpa using h2.symm
        rw [hd]
        decide)).2.1 (by decide) (by decide)
  rw [(by decide : ("<a href=\"http://e.com\">".toList : List Char) =
    ('<' :: 'a' :: " href=\"http://e.com\"".toList) ++ ['>'])]
  exact ⟨h.2.1, h.2.2⟩

/- ----------------------------------------------------------------- -/
/- C5: structure of inputs accepted by the strptime formats.         -/
/- ----------------------------------------------------------------- -/


theorem findSome?_ex {α β : Type} {l : List α} {f : α → Option β} {b : β}
    (h : l.findSome? f = some b) : ∃ a, a ∈ l ∧ f a = some b := by
  induction l with
  | nil => cases h
  | cons x xs ih =>
    cases hf : f x with
    | some y =>
      rw [List.findSome?_cons, hf] at h
      exact ⟨x, by simp, by rw [hf]; exact h⟩
    | none =>
      rw [List.findSome?_cons, hf] at h
      obtain ⟨a, ha, hfa⟩ := ih h
      exact ⟨a, by simp [ha], hfa⟩

theorem char_range_digit {c : Char} (h1 : '1' ≤ c) (h2 : c ≤ '9') :
    c.isDigit = true := by
  have hn1 : 49 ≤ c.toNat := h1
  have hn2 : c.toNat ≤ 57 := h2
  have h3 : 48 ≤ c.toNat ∧ c.toNat ≤ 57 := ⟨by omega, hn2⟩
  simp [Char.isDigit]
  exact h3

theorem dayCands_mem {r : List Char} {d : Nat} {r2 : List Char}
    (h : (d, r2) ∈ dayCands r) :
    ∃ pre, r = pre ++ r2 ∧ pre ≠ [] ∧ ∀ c ∈ pre, c.isDigit = true := by
  unfold dayCands at h
  rcases List.mem_append.mp h with h1 | hc4
  rcases List.mem_append.mp h1 with h2 | hc3
  rcases List.mem_append.mp h2 with hc1 | hc2
  · -- 3[01]
    split at hc1
    · rename_i a c rest
      split at hc1
      next hcond =>
        simp only [List.mem_singleton, Prod.mk.injEq] at hc1
        obtain ⟨_, rfl⟩ := hc1
        simp only [Bool.and_eq_true, Bool.or_eq_true, decide_eq_true_eq] at hcond
        refine ⟨[a, c], rfl, by simp, ?_⟩
        intro x hx
        rcases List.mem_cons.mp hx with rfl | hx2
        · rw [hcond.1]; decide
        rcases List.mem_cons.mp hx2 with rfl | hx3
        · rcases hcond.2 with rfl | rfl <;> decide
        · cases hx3
      next => cases hc1
    · cases hc1
  · -- [12]\d
    split at hc2
    · rename_i a c rest
      split at hc2
      next hcond =>
        simp only [List.mem_singleton, Prod.mk.injEq] at hc2
        obtain ⟨_, rfl⟩ := hc2
        simp only [Bool.and_eq_true, Bool.or_eq_true, decide_eq_true_eq] at hcond
        refine ⟨[a, c], rfl, by simp, ?_⟩
        intro x hx
        rcases List.mem_cons.mp hx with rfl | hx2
        · rcases hcond.1 with rfl | rfl <;> decide
        rcases List.mem_cons.mp hx2 with rfl | hx3
        · exact hcond.2
        · cases hx3
      next => cases hc2
    · cases hc2
  · -- 0[1-9]
    split at hc3
    · rename_i a c rest
      split at hc3
      next hcond =>
        simp only [List.mem_singleton, Prod.mk.injEq] at hc3
        obtain ⟨_, rfl⟩ := hc3
        simp only [Bool.and_eq_true, decide_eq_true_eq] at hcond
        refine ⟨[a, c], rfl, by simp, ?_⟩
        intro x hx
        rcases List.mem_cons.mp hx with rfl | hx2
        · rw [hcond.1]; decide
        rcases List.mem_cons.mp hx2 with rfl | hx3
        · exact char_range_digit hcond.2.1 hcond.2.2
        · cases hx3
      next => cases hc3
    · cases hc3
  · -- [1-9]
    split at hc4
    · rename_i c rest
      split at hc4
      next hcond =>
        simp only [List.mem_singleton, Prod.mk.injEq] at hc4
        obtain ⟨_, rfl⟩ := hc4
        simp only [Bool.and_eq_true, decide_eq_true_eq] at hcond
        refine ⟨[c], rfl, by simp, ?_⟩
        intro x hx
        rcases List.mem_cons.mp hx with rfl | hx2
        · exact char_range_digit hcond.1 hcond.2
        · cases hx2
      next => cases hc4
    · cases hc4

theorem safeTail_lower {c : Char} (h : isSafeTail c = true) :
    Char.toLower c = c := by
  unfold isSafeTail at h
  simp only [Bool.or_eq_true, decide_eq_true_eq, or_assoc] at h
  rcases h with h | h | h | h
  · unfold isPySpace at h
    simp only [Bool.or_eq_true, decide_eq_true_eq, or_assoc] at h
    rcases h with rfl | rfl | rfl | rfl | rfl | rfl <;> decide
  · exact toLower_digit h
  · subst h; decide
  · subst h; decide

theorem yesterday_chars_hard : ∀ x ∈ yesterdayL, isSafeTail x = false := by decide

theorem monthName_facts : ∀ nm ∈ monthNamesAll, nm ≠ [] ∧
    (nm.headD ' ').isDigit = false ∧ infixOf yesterdayL nm = false := by decide

/-- A successful `\s+%d,\s+%Y` full match consumes only whitespace,
digits, one comma (and nothing else). -/
theorem afterMonthRegex_safe {r : List Char} {dy : Nat × Nat}
    (h : afterMonthRegex r = some dy) : ∀ c ∈ r, isSafeTail c = true := by
  unfold afterMonthRegex at h
  split at h
  next => cases h
  next hws =>
    obtain ⟨⟨d0, r2⟩, hdc, hf⟩ := findSome?_ex h
    obtain ⟨pre, hr1, hprene, hpredig⟩ := dayCands_mem hdc
    split at hf
    · rename_i c0 r3 heq2
      have hr23 : r2 = c0 :: r3 := heq2
      split at hf
      next hc0 =>
        split at hf
        next => cases hf
        next hws2 =>
          split at hf
          · rename_i a b c d heq4
            split at hf
            next hdig =>
              simp only [Bool.and_eq_true, and_assoc] at hdig
              intro x hx
              rw [← List.takeWhile_append_dropWhile isPySpace r] at hx
              rcases List.mem_append.mp hx with hx1 | hx2
              · have hsp := List.mem_takeWhile_imp hx1
                simp [isSafeTail, hsp]
              · rw [hr1] at hx2
                rcases List.mem_append.mp hx2 with hx3 | hx4
                · have hd := hpredig x hx3
                  simp [isSafeTail, hd]
                · rw [hr23] at hx4
                  rcases List.mem_cons.mp hx4 with rfl | hx5
                  · rw [hc0]; decide
                  · rw [← List.takeWhile_append_dropWhile isPySpace r3] at hx5
                    rcases List.mem_append.mp hx5 with hx6 | hx7
                    · have hsp := List.mem_takeWhile_imp hx6
                      simp [isSafeTail, hsp]
                    · rw [heq4] at hx7
                      simp only [List.mem_cons, List.not_mem_nil, or_false] at hx7
                      rcases hx7 with rfl | rfl | rfl | rfl <;>
                        simp [isSafeTail, hdig.1, hdig.2.1, hdig.2.2.1, hdig.2.2.2]
            next => cases hf
          · cases hf
      next => cases hf
    · cases hf

/-- A successful strptime format match splits the input into a month
name (up to case) followed by whitespace/digits/comma/dot only. -/
theorem tryFormatA_decomp {names : List (List Char × Nat)} {dot : Bool}
    {s : List Char} {o : Nat} (h : tryFormatA names dot s = some o) :
    ∃ p mn tail, p ∈ names ∧ s = mn ++ tail ∧ lowerStr mn = p.1 ∧
      ∀ c ∈ tail, isSafeTail c = true := by
  unfold tryFormatA at h
  rw [Option.bind_eq_some] at h
  obtain ⟨mr, hfind, h⟩ := h
  obtain ⟨p, hp, hmap⟩ := findSome?_ex hfind
  rw [Option.map_eq_some'] at hmap
  obtain ⟨r, hstrip, hmr⟩ := hmap
  obtain ⟨hr, hlen, hsplit, hlow⟩ := stripPreCI_some hstrip
  subst hmr
  rw [Option.bind_eq_some] at h
  obtain ⟨r1, hr1, h2⟩ := h
  rw [Option.bind_eq_some] at h2
  obtain ⟨dy, hAMR, h3⟩ := h2
  have hsafe1 := afterMonthRegex_safe hAMR
  refine ⟨p, s.take p.1.length, r, hp, hsplit, hlow, ?_⟩
  cases dot with
  | false =>
    simp only [Bool.false_eq_true, if_false] at hr1
    injection hr1 with hr1
    intro c hc
    exact hsafe1 c (hr1 ▸ hc)
  | true =>
    rw [if_pos rfl] at hr1
    unfold dotStrip at hr1
    split at hr1
    · rename_i c0 t heq
      split at hr1
      next hc0 =>
        injection hr1 with hr1
        intro x hx
        have heq' : r = c0 :: t := heq
        rw [heq'] at hx
        rcases List.mem_cons.mp hx with rfl | hx2
        · rw [hc0]; decide
        · exact hsafe1 x (hr1 ▸ hx2)
      next => cases hr1
    · cases hr1

/-- The strptime loop accepts only inputs of the shape
"month-name (any case) ++ safe tail". -/
theorem parseAbsDate_decomp {s : List Char} {o : Nat}
    (h : parseAbsDate s = some o) :
    ∃ nm mn tail, nm ∈ monthNamesAll ∧ s = mn ++ tail ∧ lowerStr mn = nm ∧
      ∀ c ∈ tail, isSafeTail c = true := by
  unfold parseAbsDate at h
  split at h
  next o1 h1 =>
    obtain ⟨p, mn, tail, hp, hsp, hlow, hsafe⟩ := tryFormatA_decomp h1
    exact ⟨p.1, mn, tail,
      List.mem_append.mpr (Or.inl (List.mem_map.mpr ⟨p, hp, rfl⟩)),
      hsp, hlow, hsafe⟩
  next h1 =>
    split at h
    next o2 h2 =>
      obtain ⟨p, mn, tail, hp, hsp, hlow, hsafe⟩ := tryFormatA_decomp h2
      exact ⟨p.1, mn, tail,
        List.mem_append.mpr (Or.inr (List.mem_map.mpr ⟨p, hp, rfl⟩)),
        hsp, hlow, hsafe⟩
    next h2 =>
      obtain ⟨p, mn, tail, hp, hsp, hlow, hsafe⟩ := tryFormatA_decomp h
      exact ⟨p.1, mn, tail,
        List.mem_append.mpr (Or.inl (List.mem_map.mpr ⟨p, hp, rfl⟩)),
        hsp, hlow, hsafe⟩

/-- C5: an input whose stripped form parses as an absolute calendar
date under the ordered strptime templates ("%b %d, %Y", "%B %d, %Y",
"%b. %d, %Y"; first success wins, which is what `parseAbsDate`
computes) makes `within_past_week` return true exactly when the
whole-day difference reference-minus-parsed is at most 7; the literal
comparison also lets future dates (negative difference) through. -/
theorem C5_absolute_dates (ref : Int) (s : List Char) (o : Nat)
    (hp : parseAbsDate (pyStrip s) = some o) :
    within_past_week ref s = decide (ref - (o : Int) ≤ 7) := by
  have hne : s.isEmpty = false := by
    cases s with
    | nil =>
      exfalso
      have h0 : parseAbsDate (pyStrip ([] : List Char)) = none := by decide
      rw [h0] at hp; cases hp
    | cons a r => rfl
  obtain ⟨nm, mn, tail, hnmMem, hsplit, hlowmn, htail⟩ := parseAbsDate_decomp hp
  obtain ⟨hnmne, hnmhd, hnmyest⟩ := monthName_facts nm hnmMem
  have hn : lowerStr (pyStrip s) = nm ++ tail := by
    rw [hsplit]
    unfold lowerStr
    simp only [List.map_append]
    rw [show mn.map Char.toLower = nm from hlowmn]
    congr 1
    exact lowerStr_id_of fun c hc => safeTail_lower (htail c hc)
  cases nm with
  | nil => exact absurd rfl hnmne
  | cons c0 nmr =>
  have hc0 : c0.isDigit = false := by simpa using hnmhd
  have hn' : lowerStr (pyStrip s) = c0 :: (nmr ++ tail) := by rw [hn]; rfl
  have hyest : infixOf yesterdayL (lowerStr (pyStrip s)) = false := by
    cases hinf : infixOf yesterdayL (lowerStr (pyStrip s)) with
    | false => rfl
    | true =>
      exfalso
      have h1 : listInf yesterdayL ((c0 :: nmr) ++ tail) := by
        rw [← hn]; exact infixOf_iff.mp hinf
      rcases infAppendSplit h1 with h2 | h2 | ⟨p1, p2, hp12, hp1, hp2, hs1, hpre⟩
      · exact absurd (infixOf_iff.mpr h2) (bool_not_true hnmyest)
      · have hy : 'y' ∈ tail := mem_of_listInf h2 (by decide)
        have h3 := htail 'y' hy
        rw [yesterday_chars_hard 'y' (by decide)] at h3
        cases h3
      · cases p2 with
        | nil => exact absurd rfl hp2
        | cons d p2' =>
          have hd1 : d ∈ yesterdayL := by rw [← hp12]; simp
          have hd2 : d ∈ tail := by
            rcases hpre with ⟨t, ht⟩; rw [← ht]; simp
          have h3 := htail d hd2
          rw [yesterday_chars_hard d hd1] at h3
          cases h3
  have hmc : ∀ us : List (List Char),
      matchCount us (lowerStr (pyStrip s)) = none := by
    intro us
    rw [hn']
    exact matchCount_cons_nondigit hc0 _
  rw [@within_eval ref s (lowerStr (pyStrip s)) hne rfl]
  rw [if_neg (by rw [hyest]; exact Bool.false_ne_true),
    if_neg (by rw [hmc minUnits]; exact Bool.false_ne_true),
    if_neg (by rw [hmc hourUnits]; exact Bool.false_ne_true),
    hmc dayUnits, hmc weekUnits, hp]

theorem C5_witness :
    (parseAbsDate (pyStrip ("Oct 4, 2025".toList)) = some (toOrdinal 2025 10 4) ∧
     within_past_week ((toOrdinal 2025 10 11 : Nat) : Int)
       ("Oct 4, 2025".toList) = true) ∧
    (parseAbsDate (pyStrip ("Oct 3, 2025".toList)) = some (toOrdinal 2025 10 3) ∧
     within_past_week ((toOrdinal 2025 10 11 : Nat) : Int)
       ("Oct 3, 2025".toList) = false) ∧
    (parseAbsDate (pyStrip ("Oct 20, 2025".toList)) = some (toOrdinal 2025 10 20) ∧
     within_past_week ((toOrdinal 2025 10 11 : Nat) : Int)
       ("Oct 20, 2025".toList) = true) :=
  ⟨⟨by decide,
    by rw [C5_absolute_dates _ _ (toOrdinal 2025 10 4) (by decide)]; decide⟩,
   ⟨by decide,
    by rw [C5_absolute_dates _ _ (toOrdinal 2025 10 3) (by decide)]; decide⟩,
   ⟨by decide,
    by rw [C5_absolute_dates _ _ (toOrdinal 2025 10 20) (by decide)]; decide⟩⟩
